import Mathlib

/-!
Shallow embedding of the Smart Scheduler core (`src/scheduler.js`).

Conventions of the embedding:
* calendar dates are serial day numbers (`ℕ`): days elapsed since 0000-01-01
  in the proleptic Gregorian calendar;
* hours are exact rationals (`ℚ`), standing for the JS numbers;
* a thrown JS exception is the `Outcome.throws` constructor, a JS infinite
  loop (which the source can enter, e.g. in `nextWorkday`) is
  `Outcome.diverge`, and a normal return is `Outcome.ok`;
* JS `Map`s keyed by task title are association lists in insertion order.
-/

namespace SmartScheduler

/-! ### Calendar utility

The spec treats date parsing, date addition and weekday lookup as an
external calendar utility (`dayjs` in the source).  `isLeapYear`,
`daysInMonth`, `toSerial` and `weekdayName` implement standard proleptic
Gregorian calendar arithmetic on serial day numbers. -/

def isLeapYear (y : ℕ) : Bool :=
  (y % 4 == 0 && y % 100 != 0) || y % 400 == 0

def daysInMonth (y m : ℕ) : ℕ :=
  if m = 2 then (if isLeapYear y then 29 else 28)
  else if m = 4 ∨ m = 6 ∨ m = 9 ∨ m = 11 then 30
  else 31

/-- Number of leap years in `[0, y)` (year 0 is a leap year). -/
def leapsBefore (y : ℕ) : ℕ :=
  (y + 3) / 4 - (y + 99) / 100 + (y + 399) / 400

/-- Days in year `y` before the first day of month `m`. -/
def daysBeforeMonth (y m : ℕ) : ℕ :=
  ((List.range (m - 1)).map (fun i => daysInMonth y (i + 1))).sum

/-- Serial day number of the calendar date `y-m-d`. -/
def toSerial (y m d : ℕ) : ℕ :=
  365 * y + leapsBefore y + daysBeforeMonth y m + (d - 1)

/-- `WEEKDAY_NAME` from the source: weekday names indexed Sunday-first. -/
def WEEKDAY_NAME : List String := ["Sun", "Mon", "Tue", "Wed", "Thu", "Fri", "Sat"]

/-- Weekday of a serial day number (0000-01-01 was a Saturday). -/
def weekdayName (n : ℕ) : String :=
  WEEKDAY_NAME.getD ((n + 6) % 7) ""

def digitVal (c : Char) : ℕ := c.toNat - 48

/-- Parse a date of shape `YYYYsMMsDD` with separator character `sep`,
validating month and day-of-month ranges. -/
def parseWithSep (sep : Char) (s : String) : Option ℕ :=
  match s.toList with
  | [y1, y2, y3, y4, c1, m1, m2, c2, d1, d2] =>
    if c1 = sep ∧ c2 = sep ∧ y1.isDigit ∧ y2.isDigit ∧ y3.isDigit ∧ y4.isDigit ∧
        m1.isDigit ∧ m2.isDigit ∧ d1.isDigit ∧ d2.isDigit then
      let y := digitVal y1 * 1000 + digitVal y2 * 100 + digitVal y3 * 10 + digitVal y4
      let m := digitVal m1 * 10 + digitVal m2
      let d := digitVal d1 * 10 + digitVal d2
      if 1 ≤ m ∧ m ≤ 12 ∧ 1 ≤ d ∧ d ≤ daysInMonth y m then some (toSerial y m d)
      else none
    else none
  | _ => none

/-- Modelled from the spec: the calendar utility's strict fixed-format date
parsing ("dates use the fixed YYYY-MM-DD format with strict validation").
This is `parseDate` in the source (`dayjs(s, "YYYY-MM-DD", true)`). -/
def parseDate (s : String) : Option ℕ :=
  parseWithSep '-' s

/-- Modelled from the spec: the calendar utility's lenient date constructor,
used by the source for `startDate` (`dayjs(startDate, "YYYY-MM-DD")`, no
strict flag, no validity check).  It accepts the strict format and also
coerces the slash-separated variant `YYYY/MM/DD`; strings it cannot parse
yield an invalid date, which makes the source's `nextWorkday` loop forever
(modelled as `none`, i.e. divergence downstream). -/
def parseDateLenient (s : String) : Option ℕ :=
  match parseDate s with
  | some n => some n
  | none => parseWithSep '/' s

/-- `nextWorkday` from the source: first day `≥ d` whose weekday name is in
`workDays`.  Weekdays repeat with period 7, so the source's unbounded search
succeeds within 7 days if it succeeds at all; `none` models the source
looping forever (no recognized weekday name in `workDays`). -/
def nextWorkday (d : ℕ) (workDays : List String) : Option ℕ :=
  ((List.range 7).map (fun k => d + k)).find? (fun x => workDays.contains (weekdayName x))

/-! ### Data model -/

/-- A raw task descriptor as received by `scheduleTasks`.  `dependencies` is
`none` when the field is absent or not an array (the source then defaults
it to `[]`). -/
structure RawTask where
  title : String
  estimatedHours : ℚ
  dueDate : String
  dependencies : Option (List String)
deriving Repr, DecidableEq

/-- A normalized task as stored in the source's `taskMap`. -/
structure Task where
  title : String
  estimatedHours : ℚ
  dueDate : ℕ
  dependencies : List String
deriving Repr, DecidableEq, Inhabited

/-- Raw dependencies after the source's `Array.isArray` defaulting. -/
def RawTask.deps (t : RawTask) : List String :=
  t.dependencies.getD []

/-- Result of a call into the core: a normal return, a thrown error, or an
infinite loop in the source (`diverge`). -/
inductive Outcome (α : Type) where
  | diverge
  | throws (msg : String)
  | ok (val : α)
deriving Repr, DecidableEq

structure Alloc where
  title : String
  hours : ℚ
deriving Repr, DecidableEq

structure DayRec where
  date : ℕ
  allocations : List Alloc
deriving Repr, DecidableEq

/-- A due-date overrun warning: the source pushes a message string naming
the task, its due date and the current day; we keep those three fields. -/
structure SWarning where
  title : String
  dueDate : ℕ
  day : ℕ
deriving Repr, DecidableEq

structure ScheduleOutput where
  recommendedOrder : List String
  schedule : List DayRec
  warnings : List SWarning
deriving Repr, DecidableEq

structure SchedInput where
  tasks : List RawTask
  workHoursPerDay : ℚ
  workDays : List String
  startDate : Option String
deriving Repr, DecidableEq

/-! ### Task registry (validation / normalization, source lines 18–42) -/

/-- The `tasks.forEach` loop of the source: validates each descriptor in
order (non-empty title and positive hours, then strict due-date parse, then
duplicate-title check) and accumulates the normalized task list. -/
def buildTaskMap : List RawTask → List Task → Except String (List Task)
  | [], acc => .ok acc
  | t :: ts, acc =>
    if t.title = "" ∨ t.estimatedHours ≤ 0 then
      .error ("Each task must have title and positive estimatedHours. Invalid: " ++ t.title)
    else
      match parseDate t.dueDate with
      | none => .error ("Invalid dueDate for task " ++ t.title)
      | some due =>
        if (acc.map Task.title).contains t.title then
          .error ("Duplicate task title: " ++ t.title)
        else
          buildTaskMap ts (acc ++ [⟨t.title, t.estimatedHours, due, t.deps⟩])

/-- A dependency entry `d` of task `t` that makes the source's dependency
validation throw: unknown title, or the task itself. -/
def badDep (tm : List Task) (t : Task) (d : String) : Bool :=
  ¬ (tm.map Task.title).contains d ∨ d = t.title

/-- Dependency validation (source lines 37–42): every dependency must name a
known task and must not name the task itself; the first offender (in task
order, then dependency order) determines the error. -/
def checkDeps (tm : List Task) : Except String Unit :=
  match tm.find? (fun t => t.dependencies.any (badDep tm t)) with
  | some t =>
    match t.dependencies.find? (badDep tm t) with
    | some d =>
      if ¬ (tm.map Task.title).contains d then
        .error ("Task depends on unknown task " ++ d)
      else .error ("Task " ++ t.title ++ " depends on itself")
    | none => .ok ()
  | none => .ok ()

/-! ### Dependency sequencer (source lines 44–89) -/

def findTask (tm : List Task) (title : String) : Option Task :=
  tm.find? (fun t => t.title = title)

/-- Association-list lookup (JS `Map.get`). -/
def alGet {β : Type} : List (String × β) → String → Option β
  | [], _ => none
  | p :: r, k => if p.1 = k then some p.2 else alGet r k

/-- Decrement the entry at key `k` by one, if present.  An absent key models
a JS `Map` entry holding `NaN` (the source's `indeg.get(nb) - 1` on a
missing key): it never compares equal to `0`, so it is never pushed. -/
def alDec : List (String × Int) → String → List (String × Int)
  | [], _ => []
  | p :: r, k => if p.1 = k then (p.1, p.2 - 1) :: r else p :: alDec r k

/-- Association-list insert-or-overwrite (JS `Map.set`). -/
def alSet {β : Type} : List (String × β) → String → β → List (String × β)
  | [], k, v => [(k, v)]
  | p :: r, k, v => if p.1 = k then (k, v) :: r else p :: alSet r k v

/-- The forward adjacency `adj` of the source: all tasks listing `dep` as a
dependency, in task order, once per occurrence of `dep` in their lists. -/
def adjOf (tm : List Task) (dep : String) : List String :=
  tm.flatMap (fun t => (t.dependencies.filter (fun d => d = dep)).map (fun _ => t.title))

/-- `taskMap.get` of the source; a title outside the map (which would
crash the source) yields a default task. -/
def taskGet (tm : List Task) (a : String) : Task :=
  (findTask tm a).getD default

/-- The source's comparator `cmp` as a ≤-style Boolean relation:
`cmpLE tm a b` iff `cmp(a, b) ≤ 0` — due date ascending, then estimated
hours descending, then title (`localeCompare` modelled as the standard
string order). -/
def cmpLE (tm : List Task) (a b : String) : Bool :=
  let ta := taskGet tm a
  let tb := taskGet tm b
  if ta.dueDate < tb.dueDate then true
  else if tb.dueDate < ta.dueDate then false
  else if tb.estimatedHours < ta.estimatedHours then true
  else if ta.estimatedHours < tb.estimatedHours then false
  else a ≤ b

/-- Insertion of `x` into `l` before the first element `y` with `le x y`. -/
def insertBy {α : Type} (le : α → α → Bool) (x : α) : List α → List α
  | [] => [x]
  | y :: ys => if le x y then x :: y :: ys else y :: insertBy le x ys

/-- The source's `available.sort(cmp)`, as a structural insertion sort.
The ready titles are pairwise distinct and `cmp` is total, transitive and
antisymmetric on distinct titles, so the sorted array is the unique
`cmp`-sorted rearrangement — whatever algorithm the JS engine uses. -/
def sortBy {α : Type} (le : α → α → Bool) : List α → List α
  | [] => []
  | y :: ys => insertBy le y (sortBy le ys)

lemma insertBy_perm {α : Type} (le : α → α → Bool) (x : α) (l : List α) :
    (insertBy le x l).Perm (x :: l) := by
  induction l with
  | nil => exact List.Perm.refl _
  | cons y ys ih =>
    simp only [insertBy]
    by_cases h : le x y = true
    · rw [if_pos h]
    · rw [if_neg h]
      exact (ih.cons y).trans (List.Perm.swap x y ys)

lemma sortBy_perm {α : Type} (le : α → α → Bool) (l : List α) :
    (sortBy le l).Perm l := by
  induction l with
  | nil => exact List.Perm.refl _
  | cons y ys ih => exact (insertBy_perm le y (sortBy le ys)).trans (ih.cons y)

lemma insertBy_pairwise {α : Type} (le : α → α → Bool)
    (htot : ∀ a b, le a b = true ∨ le b a = true)
    (htr : ∀ a b c, le a b = true → le b c = true → le a c = true)
    (x : α) (l : List α) (hl : l.Pairwise (fun a b => le a b = true)) :
    (insertBy le x l).Pairwise (fun a b => le a b = true) := by
  induction l with
  | nil => simp [insertBy]
  | cons y ys ih =>
    rw [List.pairwise_cons] at hl
    simp only [insertBy]
    by_cases h : le x y = true
    · rw [if_pos h]
      refine List.pairwise_cons.mpr ⟨?_, List.pairwise_cons.mpr ⟨hl.1, hl.2⟩⟩
      intro z hz
      rcases List.mem_cons.mp hz with rfl | hz2
      · exact h
      · exact htr x y z h (hl.1 z hz2)
    · rw [if_neg h]
      have hyx : le y x = true := (htot x y).resolve_left h
      refine List.pairwise_cons.mpr ⟨?_, ih hl.2⟩
      intro z hz
      have hz2 : z = x ∨ z ∈ ys := by
        have := (insertBy_perm le x ys).mem_iff.mp hz
        simpa using this
      rcases hz2 with rfl | hz3
      · exact hyx
      · exact hl.1 z hz3

lemma sortBy_pairwise {α : Type} (le : α → α → Bool)
    (htot : ∀ a b, le a b = true ∨ le b a = true)
    (htr : ∀ a b c, le a b = true → le b c = true → le a c = true)
    (l : List α) : (sortBy le l).Pairwise (fun a b => le a b = true) := by
  induction l with
  | nil => simp [sortBy]
  | cons y ys ih => exact insertBy_pairwise le htot htr y (sortBy le ys) ih

/-- State of the source's Kahn loop: the `indeg` map, the sorted `available`
array, and the `topo` output so far. -/
structure KState where
  indeg : List (String × Int)
  available : List String
  topo : List String
deriving Repr, DecidableEq

/-- Body of the source's `for (const nb of adj.get(cur))`: decrement the
in-degree of `nb`; when it reaches exactly 0, push `nb` and re-sort. -/
def relaxNb (tm : List Task) (st : KState) (nb : String) : KState :=
  let indeg2 := alDec st.indeg nb
  if alGet indeg2 nb = some 0 then
    { st with indeg := indeg2,
              available := sortBy (cmpLE tm) (st.available ++ [nb]) }
  else { st with indeg := indeg2 }

def sumToNat (l : List (String × Int)) : ℕ :=
  (l.map (fun p => p.2.toNat)).sum

def kahnMeasure (st : KState) : ℕ :=
  st.available.length + sumToNat st.indeg

lemma alDec_sumToNat_le (l : List (String × Int)) (k : String) :
    sumToNat (alDec l k) ≤ sumToNat l := by
  induction l with
  | nil => simp [alDec]
  | cons p r ih =>
    by_cases h : p.1 = k
    · simp only [alDec, h, if_pos, sumToNat, List.map_cons, List.sum_cons]
      have : (p.2 - 1).toNat ≤ p.2.toNat := by omega
      omega
    · simp only [alDec, h, if_neg, not_false_iff, sumToNat, List.map_cons, List.sum_cons]
      have := ih
      simp only [sumToNat] at this
      omega

lemma alDec_sumToNat_of_zero (l : List (String × Int)) (k : String)
    (h : alGet (alDec l k) k = some 0) :
    sumToNat (alDec l k) + 1 ≤ sumToNat l := by
  induction l with
  | nil => simp [alDec, alGet] at h
  | cons p r ih =>
    by_cases hk : p.1 = k
    · simp only [alDec, hk, if_pos] at h ⊢
      simp only [alGet, if_pos] at h
      have hp : p.2 - 1 = 0 := by
        have := Option.some.inj h
        omega
      simp only [sumToNat, List.map_cons, List.sum_cons]
      omega
    · simp only [alDec, hk, if_neg, not_false_iff] at h ⊢
      simp only [alGet, hk, if_neg, not_false_iff] at h
      have := ih h
      simp only [sumToNat, List.map_cons, List.sum_cons] at *
      omega

lemma relaxNb_measure_le (tm : List Task) (st : KState) (nb : String) :
    kahnMeasure (relaxNb tm st nb) ≤ kahnMeasure st := by
  unfold relaxNb
  by_cases h : alGet (alDec st.indeg nb) nb = some 0
  · simp only [h, if_pos, kahnMeasure]
    have h1 := alDec_sumToNat_of_zero st.indeg nb h
    have h2 : (sortBy (cmpLE tm) (st.available ++ [nb])).length
        = st.available.length + 1 := by
      rw [(sortBy_perm (cmpLE tm) (st.available ++ [nb])).length_eq]
      simp
    omega
  · simp only [h, if_neg, not_false_iff, kahnMeasure]
    have := alDec_sumToNat_le st.indeg nb
    omega

lemma foldl_relax_measure_le (tm : List Task) (nbs : List String) (st : KState) :
    kahnMeasure (nbs.foldl (relaxNb tm) st) ≤ kahnMeasure st := by
  induction nbs generalizing st with
  | nil => simp
  | cons n r ih =>
    exact le_trans (ih (relaxNb tm st n)) (relaxNb_measure_le tm st n)

/-- The source's `while (available.length > 0)` loop: pop the head of the
sorted ready list, append it to `topo`, relax its out-neighbours. -/
def kahnLoop (tm : List Task) (st : KState) : List String :=
  match h : st.available with
  | [] => st.topo
  | cur :: rest =>
    kahnLoop tm ((adjOf tm cur).foldl (relaxNb tm) ⟨st.indeg, rest, st.topo ++ [cur]⟩)
termination_by kahnMeasure st
decreasing_by
  have h1 := foldl_relax_measure_le tm (adjOf tm cur) ⟨st.indeg, rest, st.topo ++ [cur]⟩
  have h3 : st.available.length = rest.length + 1 := by rw [h]; rfl
  simp only [kahnMeasure] at h1 ⊢
  omega

/-- The initial state of the source's Kahn loop: in-degrees from the task
map, the ready list holding the 0-in-degree titles, sorted. -/
def kahnInit (tm : List Task) : KState :=
  let indeg := tm.map (fun t => (t.title, (t.dependencies.length : Int)))
  let avail0 := sortBy (cmpLE tm) ((indeg.filter (fun p => p.2 = 0)).map (fun p => p.1))
  ⟨indeg, avail0, []⟩

/-- The prioritized Kahn's algorithm of the source (lines 44–86). -/
def runSequencer (tm : List Task) : List String :=
  kahnLoop tm (kahnInit tm)

/-! ### Calendar allocator (source lines 91–179) -/

/-- Mutable state of the allocation walk. -/
structure AState where
  currentDay : ℕ
  freeHoursToday : ℚ
  schedule : List DayRec
  warnings : List SWarning
  finishedAt : List (String × ℕ)
deriving Repr, DecidableEq

/-- `addAllocation` from the source: append the hours to the first day
record with this date, or push a fresh day record at the end. -/
def addAllocation : List DayRec → ℕ → String → ℚ → List DayRec
  | [], date, title, hours => [⟨date, [⟨title, hours⟩]⟩]
  | r :: rs, date, title, hours =>
    if r.date = date then ⟨r.date, r.allocations ++ [⟨title, hours⟩]⟩ :: rs
    else r :: addAllocation rs date title hours

/-- `advanceToNextWorkday` from the source: step to the next workday and
reset the free hours; `none` models the source looping forever. -/
def advanceToNextWorkday (wds : List String) (hpd : ℚ) (st : AState) : Option AState :=
  (nextWorkday (st.currentDay + 1) wds).map
    (fun nd => { st with currentDay := nd, freeHoursToday := hpd })

/-- The serial day of `dayjs("1970-01-01")`, the source's sentinel for
"ready immediately". -/
def epochDay : ℕ := toSerial 1970 1 1

/-- The source's `while (rem > 0)` loop for one task, with explicit fuel:
running out of fuel (`none`) stands for the loop never finishing, which
the source only does when it can make no progress (see
`allocLoop_enough_fuel`). -/
def allocLoop (wds : List String) (hpd : ℚ) (t : Task) :
    ℕ → ℚ → AState → Option AState
  | 0, _, _ => none
  | fuel + 1, rem, st =>
    if rem ≤ 0 then some st
    else
      let st1 := if t.dueDate < st.currentDay then
          { st with warnings := st.warnings ++ [⟨t.title, t.dueDate, st.currentDay⟩] }
        else st
      if st1.freeHoursToday ≤ 0 then
        match advanceToNextWorkday wds hpd st1 with
        | none => none
        | some st2 => allocLoop wds hpd t fuel rem st2
      else
        let a := min st1.freeHoursToday rem
        let st2 := { st1 with
          schedule := addAllocation st1.schedule st1.currentDay t.title a,
          freeHoursToday := st1.freeHoursToday - a }
        if 0 < rem - a then
          match advanceToNextWorkday wds hpd st2 with
          | none => none
          | some st3 => allocLoop wds hpd t fuel (rem - a) st3
        else some st2

/-- Fuel that provably suffices for `allocLoop` whenever `0 < hpd`. -/
def allocFuel (rem hpd : ℚ) : ℕ :=
  2 * (⌈rem / hpd⌉).toNat + 3

/-- The source's `earliestReady` fold over a task's dependencies.  A
dependency missing from `finishedAt` hits the source's fallback branch,
which (with no `dayjs.max` plugin loaded) overwrites `earliestReady` with
the current wall-clock date. -/
def earliestReadyOf (today : ℕ) (finished : List (String × ℕ)) (deps : List String) : ℕ :=
  deps.foldl (fun er d =>
    match alGet finished d with
    | none => today
    | some f => if er < f then f else er) epochDay

/-- The date a task last received hours: the source's reverse search for
`lastDayRecord`. -/
def lastAllocDay (sch : List DayRec) (title : String) : Option ℕ :=
  (sch.reverse.find? (fun r => r.allocations.any (fun a => a.title = title))).map
    (fun r => r.date)

/-- Allocation and finish-date recording for one task, after dependency
gating (source lines 149–178).  `throws "internal ..."` models the
`TypeError` the source would raise on its (unreachable) undefined lookup
of an absent `lastDayRecord`. -/
def processTaskRest (tm : List Task) (wds : List String) (hpd : ℚ)
    (t : Task) (st1 : AState) : Outcome AState :=
  match allocLoop wds hpd t (allocFuel t.estimatedHours hpd) t.estimatedHours st1 with
  | none => .diverge
  | some st2 =>
    match lastAllocDay st2.schedule t.title with
    | none => .throws "internal: task has no allocation"
    | some fd => .ok { st2 with finishedAt := alSet st2.finishedAt t.title fd }

/-- Body of the source's `for (const title of topo)` loop (lines 127–179):
dependency gating, hour allocation, and recording of the finish date.
`throws "internal ..."` models the `TypeError` the source would raise on
its (unreachable) undefined lookups. -/
def processTask (tm : List Task) (wds : List String) (hpd : ℚ) (today : ℕ)
    (st : AState) (title : String) : Outcome AState :=
  match findTask tm title with
  | none => .throws "internal: unknown task in order"
  | some t =>
    let er := earliestReadyOf today st.finishedAt t.dependencies
    let gated : Option AState :=
      if st.currentDay < er then
        (nextWorkday er wds).map (fun nd => { st with currentDay := nd, freeHoursToday := hpd })
      else some st
    match gated with
    | none => .diverge
    | some st1 => processTaskRest tm wds hpd t st1

/-- Fold `processTask` over the sequenced order, short-circuiting on a
thrown error or divergence. -/
def allocAll (tm : List Task) (wds : List String) (hpd : ℚ) (today : ℕ) :
    List String → AState → Outcome AState
  | [], st => .ok st
  | title :: rest, st =>
    match processTask tm wds hpd today st title with
    | .ok st2 => allocAll tm wds hpd today rest st2
    | .diverge => .diverge
    | .throws e => .throws e

/-- The serial day the walk starts from: `startDate` when given and truthy
(parsed leniently, with no validity check — source line 92), else the
wall-clock date `today`. -/
def startSerial (inp : SchedInput) (today : ℕ) : Option ℕ :=
  match inp.startDate with
  | none => some today
  | some s => if s = "" then some today else parseDateLenient s

/-- `scheduleTasks` from the source.  `today` is the wall-clock date the
source reads with `dayjs()` when `startDate` is absent (or empty, which is
falsy in JS). -/
def scheduleTasks (inp : SchedInput) (today : ℕ) : Outcome ScheduleOutput :=
  if inp.tasks.length = 0 then .throws "tasks must be a non-empty array"
  else
    match buildTaskMap inp.tasks [] with
    | .error e => .throws e
    | .ok tm =>
      match checkDeps tm with
      | .error e => .throws e
      | .ok _ =>
        let topo := runSequencer tm
        if topo.length ≠ tm.length then .throws "Cycle detected in dependencies"
        else
          match startSerial inp today with
          | none => .diverge
          | some s0 =>
            match nextWorkday s0 inp.workDays with
            | none => .diverge
            | some d0 =>
              match allocAll tm inp.workDays inp.workHoursPerDay today topo
                  ⟨d0, inp.workHoursPerDay, [], [], []⟩ with
              | .diverge => .diverge
              | .throws e => .throws e
              | .ok stf => .ok ⟨topo, stf.schedule, stf.warnings⟩

/-! ### Derived notions used to state the verified properties -/

/-- The title list of a task map. -/
def titles (tm : List Task) : List String := tm.map Task.title

/-- Dependencies of the (first) task with a given title. -/
def depsOf (tm : List Task) (x : String) : List String :=
  ((findTask tm x).map Task.dependencies).getD []

/-- Estimated hours of the (first) task with a given title. -/
def estOf (tm : List Task) (x : String) : ℚ :=
  ((findTask tm x).map Task.estimatedHours).getD 0

/-- Remaining dependency occurrences of `x` outside the emitted prefix
`topo` — the quantity the source's `indeg` map tracks. -/
def countRem (tm : List Task) (topo : List String) (x : String) : ℕ :=
  ((depsOf tm x).filter (fun d => ¬ topo.contains d)).length

/-- `a` occurs at a strictly earlier position than `b` in `l`. -/
def listBefore (a b : String) (l : List String) : Prop :=
  ∃ i j : ℕ, i < j ∧ l[i]? = some a ∧ l[j]? = some b

/-- `a` directly depends on `b`. -/
def dependsOnR (tm : List Task) (a b : String) : Prop :=
  b ∈ depsOf tm a

/-- The dependency graph has a cycle: some task transitively depends on
itself. -/
def hasCycle (tm : List Task) : Prop :=
  ∃ x ∈ titles tm, Relation.TransGen (dependsOnR tm) x x

/-- Direct dependency on the raw input. -/
def rawDependsOn (ts : List RawTask) (a b : String) : Prop :=
  ∃ t ∈ ts, t.title = a ∧ b ∈ t.deps

/-- Cycle in the raw input's dependency graph. -/
def rawHasCycle (ts : List RawTask) : Prop :=
  ∃ x ∈ ts.map RawTask.title, Relation.TransGen (rawDependsOn ts) x x

/-- The error taxonomy of the spec, as a predicate on the raw input:
missing/empty task list; a descriptor lacking a non-empty title, with
non-positive hours, or with an invalid due date; a repeated title; an
unknown or self-referential dependency; or a dependency cycle. -/
def scheduleFails (inp : SchedInput) : Prop :=
  inp.tasks = [] ∨
  (∃ t ∈ inp.tasks, t.title = "" ∨ t.estimatedHours ≤ 0 ∨ parseDate t.dueDate = none) ∨
  ¬ (inp.tasks.map RawTask.title).Nodup ∨
  (∃ t ∈ inp.tasks, ∃ d ∈ t.deps, d ∉ inp.tasks.map RawTask.title ∨ d = t.title) ∨
  rawHasCycle inp.tasks

/-- Total hours allocated to a given task across the whole schedule. -/
def taskHours (sch : List DayRec) (title : String) : ℚ :=
  (sch.map (fun r =>
    ((r.allocations.filter (fun a => a.title = title)).map Alloc.hours).sum)).sum

/-- Total hours allocated on a given date across the whole schedule. -/
def dayHours (sch : List DayRec) (d : ℕ) : ℚ :=
  ((sch.filter (fun r => r.date = d)).map (fun r =>
    (r.allocations.map Alloc.hours).sum)).sum

/-- `workDays` names at least one weekday the calendar utility can produce;
exactly the condition under which the source's `nextWorkday` terminates. -/
def hasRealWorkday (wds : List String) : Prop :=
  ∃ w ∈ wds, w ∈ WEEKDAY_NAME

/-- `x` is ready after the emitted prefix `pre`: a known, unemitted title
all of whose dependency occurrences are already emitted. -/
def readyAfter (tm : List Task) (pre : List String) (x : String) : Prop :=
  x ∈ titles tm ∧ x ∉ pre ∧ ∀ d ∈ depsOf tm x, d ∈ pre

/-! ### The comparator: characterization, totality, transitivity -/

lemma cmpLE_iff (tm : List Task) (a b : String) :
    cmpLE tm a b = true ↔
      ((taskGet tm a).dueDate < (taskGet tm b).dueDate ∨
        ((taskGet tm a).dueDate = (taskGet tm b).dueDate ∧
          ((taskGet tm b).estimatedHours < (taskGet tm a).estimatedHours ∨
            ((taskGet tm a).estimatedHours = (taskGet tm b).estimatedHours ∧ a ≤ b)))) := by
  simp only [cmpLE]
  split_ifs with h1 h2 h3 h4
  · exact iff_of_true rfl (Or.inl h1)
  · refine iff_of_false (by simp) ?_
    rintro (h | ⟨h, -⟩) <;> omega
  · exact iff_of_true rfl (Or.inr ⟨by omega, Or.inl h3⟩)
  · refine iff_of_false (by simp) ?_
    rintro (h | ⟨-, h5 | ⟨h5, -⟩⟩)
    · omega
    · exact absurd h5 h3
    · exact absurd h5 (ne_of_lt h4)
  · simp only [decide_eq_true_eq]
    constructor
    · intro h
      exact Or.inr ⟨by omega, Or.inr ⟨le_antisymm (not_lt.mp h3) (not_lt.mp h4), h⟩⟩
    · rintro (h | ⟨-, h5 | ⟨-, h6⟩⟩)
      · omega
      · exact absurd h5 h3
      · exact h6

lemma cmpLE_total (tm : List Task) (a b : String) :
    cmpLE tm a b = true ∨ cmpLE tm b a = true := by
  rw [cmpLE_iff, cmpLE_iff]
  rcases lt_trichotomy (taskGet tm a).dueDate (taskGet tm b).dueDate with h | h | h
  · left; left; exact h
  · rcases lt_trichotomy (taskGet tm a).estimatedHours (taskGet tm b).estimatedHours
        with h2 | h2 | h2
    · right; right; exact ⟨h.symm, Or.inl h2⟩
    · rcases le_total a b with h3 | h3
      · left; right; exact ⟨h, Or.inr ⟨h2, h3⟩⟩
      · right; right; exact ⟨h.symm, Or.inr ⟨h2.symm, h3⟩⟩
    · left; right; exact ⟨h, Or.inl h2⟩
  · right; left; exact h

lemma cmpLE_trans (tm : List Task) (a b c : String)
    (hab : cmpLE tm a b = true) (hbc : cmpLE tm b c = true) :
    cmpLE tm a c = true := by
  rw [cmpLE_iff] at hab hbc ⊢
  rcases hab with h1 | ⟨h1, h2⟩
  · rcases hbc with h3 | ⟨h3, _⟩
    · exact Or.inl (lt_trans h1 h3)
    · exact Or.inl (h3 ▸ h1)
  · rcases hbc with h3 | ⟨h3, h4⟩
    · exact Or.inl (h1 ▸ h3)
    · refine Or.inr ⟨h1.trans h3, ?_⟩
      rcases h2 with h2 | ⟨h2, h5⟩
      · rcases h4 with h4 | ⟨h4, _⟩
        · exact Or.inl (lt_trans h4 h2)
        · exact Or.inl (h4 ▸ h2)
      · rcases h4 with h4 | ⟨h4, h6⟩
        · exact Or.inl (h2 ▸ h4)
        · exact Or.inr ⟨h2.trans h4, le_trans h5 h6⟩

/-- The comparator is antisymmetric: mutual `≤` forces equal titles. -/
lemma cmpLE_antisymm (tm : List Task) (a b : String)
    (hab : cmpLE tm a b = true) (hba : cmpLE tm b a = true) : a = b := by
  rw [cmpLE_iff] at hab hba
  rcases hab with h1 | ⟨h1, h2⟩ <;> rcases hba with h3 | ⟨h3, h4⟩
  · exact absurd (lt_trans h1 h3) (lt_irrefl _)
  · exact absurd h1 (h3 ▸ lt_irrefl _)
  · exact absurd h3 (h1 ▸ lt_irrefl _)
  · rcases h2 with h2 | ⟨h2, h5⟩ <;> rcases h4 with h4 | ⟨h4, h6⟩
    · exact absurd (lt_trans h2 h4) (lt_irrefl _)
    · exact absurd h2 (h4 ▸ lt_irrefl _)
    · exact absurd h4 (h2 ▸ lt_irrefl _)
    · exact le_antisymm h5 h6

/-! ### Association-list, lookup and adjacency lemmas -/

lemma alGet_alDec_self (l : List (String × Int)) (k : String) :
    alGet (alDec l k) k = (alGet l k).map (fun v => v - 1) := by
  induction l with
  | nil => rfl
  | cons p r ih =>
    by_cases h : p.1 = k
    · simp [alDec, alGet, h]
    · simp [alDec, alGet, h, ih]

lemma alGet_alDec_other (l : List (String × Int)) (k x : String) (hx : x ≠ k) :
    alGet (alDec l k) x = alGet l x := by
  induction l with
  | nil => rfl
  | cons p r ih =>
    simp only [alDec]
    by_cases h : p.1 = k
    · rw [if_pos h]
      simp only [alGet]
      have h2 : ¬ (p.1 = x) := fun hh => hx (hh.symm.trans h)
      rw [if_neg h2, if_neg h2]
    · rw [if_neg h]
      simp only [alGet]
      by_cases h2 : p.1 = x
      · rw [if_pos h2, if_pos h2]
      · rw [if_neg h2, if_neg h2, ih]

lemma alDec_keys (l : List (String × Int)) (k : String) :
    (alDec l k).map Prod.fst = l.map Prod.fst := by
  induction l with
  | nil => rfl
  | cons p r ih =>
    by_cases h : p.1 = k <;> simp [alDec, h, ih]

lemma alGet_isSome_iff {β : Type} (l : List (String × β)) (k : String) :
    (alGet l k).isSome ↔ k ∈ l.map Prod.fst := by
  induction l with
  | nil => simp [alGet]
  | cons p r ih =>
    by_cases h : p.1 = k
    · simp [alGet, h]
    · have : ¬ (k = p.1) := fun hh => h hh.symm
      simp [alGet, h, ih, this]

lemma alGet_alSet_self {β : Type} (l : List (String × β)) (k : String) (v : β) :
    alGet (alSet l k v) k = some v := by
  induction l with
  | nil => simp [alSet, alGet]
  | cons p r ih =>
    by_cases h : p.1 = k <;> simp [alSet, alGet, h, ih]

lemma alGet_alSet_other {β : Type} (l : List (String × β)) (k x : String) (v : β)
    (hx : x ≠ k) : alGet (alSet l k v) x = alGet l x := by
  induction l with
  | nil =>
    have : ¬ (k = x) := fun hh => hx hh.symm
    simp [alSet, alGet, this]
  | cons p r ih =>
    simp only [alSet]
    by_cases h : p.1 = k
    · rw [if_pos h]
      simp only [alGet]
      have h2 : ¬ (k = x) := fun hh => hx hh.symm
      have h3 : ¬ (p.1 = x) := fun hh => hx (hh.symm.trans h)
      rw [if_neg h2, if_neg h3]
    · rw [if_neg h]
      simp only [alGet]
      by_cases h2 : p.1 = x
      · rw [if_pos h2, if_pos h2]
      · rw [if_neg h2, if_neg h2, ih]

lemma alSet_keys_not_mem {β : Type} (l : List (String × β)) (k : String) (v : β)
    (h : k ∉ l.map Prod.fst) :
    (alSet l k v).map Prod.fst = l.map Prod.fst ++ [k] := by
  induction l with
  | nil => rfl
  | cons p r ih =>
    simp only [List.map_cons, List.mem_cons, not_or] at h
    have hp : ¬ (p.1 = k) := fun hh => h.1 hh.symm
    simp [alSet, hp, ih h.2]

lemma alGet_map_task {β : Type} (tm : List Task) (f : Task → β) (x : String) :
    alGet (tm.map (fun t => (t.title, f t))) x = (findTask tm x).map f := by
  induction tm with
  | nil => rfl
  | cons t r ih =>
    by_cases h : t.title = x
    · simp [alGet, findTask, List.find?_cons_of_pos, h]
    · simp only [List.map_cons, alGet, findTask] at *
      rw [if_neg h, List.find?_cons_of_neg, ih]
      simp [h]

lemma findTask_isSome_iff (tm : List Task) (x : String) :
    (findTask tm x).isSome ↔ x ∈ titles tm := by
  induction tm with
  | nil => simp [findTask, titles]
  | cons t r ih =>
    by_cases h : t.title = x
    · simp [findTask, List.find?_cons_of_pos, h, titles]
    · simp only [findTask, titles] at *
      rw [List.find?_cons_of_neg _ (by simp [h])]
      have : ¬ (x = t.title) := fun hh => h hh.symm
      simp [ih, this]

lemma findTask_eq_some (tm : List Task) (x : String) (t : Task)
    (h : findTask tm x = some t) : t ∈ tm ∧ t.title = x := by
  have hm := List.mem_of_find?_eq_some h
  have hp := List.find?_some h
  simp only [decide_eq_true_eq] at hp
  exact ⟨hm, hp⟩

lemma findTask_of_mem (tm : List Task) (t : Task) (ht : t ∈ tm)
    (hnd : (titles tm).Nodup) : findTask tm t.title = some t := by
  induction tm with
  | nil => cases ht
  | cons u r ih =>
    simp only [titles, List.map_cons, List.nodup_cons] at hnd
    rcases List.mem_cons.mp ht with h | h
    · subst h
      simp [findTask, List.find?_cons_of_pos]
    · by_cases hu : u.title = t.title
      · exact absurd (hu ▸ (List.mem_map_of_mem Task.title h)) hnd.1
      · simp only [findTask] at *
        rw [List.find?_cons_of_neg _ (by simp [hu])]
        exact ih h hnd.2

lemma depsOf_of_mem (tm : List Task) (t : Task) (ht : t ∈ tm)
    (hnd : (titles tm).Nodup) : depsOf tm t.title = t.dependencies := by
  simp [depsOf, findTask_of_mem tm t ht hnd]

lemma estOf_of_mem (tm : List Task) (t : Task) (ht : t ∈ tm)
    (hnd : (titles tm).Nodup) : estOf tm t.title = t.estimatedHours := by
  simp [estOf, findTask_of_mem tm t ht hnd]

lemma adjOf_mem_titles (tm : List Task) (dep x : String)
    (h : x ∈ adjOf tm dep) : x ∈ titles tm := by
  simp only [adjOf, List.mem_flatMap] at h
  obtain ⟨t, ht, hx⟩ := h
  simp only [List.mem_map] at hx
  obtain ⟨d, _, rfl⟩ := hx
  exact List.mem_map_of_mem Task.title ht

lemma count_adjOf_of_not_mem (tm : List Task) (cur x : String)
    (h : x ∉ titles tm) : (adjOf tm cur).count x = 0 := by
  rw [List.count_eq_zero]
  exact fun hc => h (adjOf_mem_titles tm cur x hc)

lemma count_map_const (l : List String) (y x : String) :
    ((l.map (fun _ => y)).count x) = if y = x then l.length else 0 := by
  induction l with
  | nil => simp
  | cons d r ih =>
    by_cases h : y = x
    · simp [List.count_cons, h, ih]
    · simp only [List.map_cons, List.count_cons, ih, if_neg h]
      simp [h]

lemma length_filter_eq_count (l : List String) (cur : String) :
    (l.filter (fun d => decide (d = cur))).length = l.count cur := by
  induction l with
  | nil => rfl
  | cons d r ih =>
    by_cases h : d = cur <;> simp [List.filter_cons, List.count_cons, h, ih]

lemma count_adjOf (tm : List Task) (cur x : String)
    (hnd : (titles tm).Nodup) :
    (adjOf tm cur).count x = (depsOf tm x).count cur := by
  induction tm with
  | nil => simp [adjOf, depsOf, findTask]
  | cons t r ih =>
    simp only [titles, List.map_cons, List.nodup_cons] at hnd
    simp only [adjOf, List.flatMap_cons, List.count_append]
    by_cases h : t.title = x
    · have hx : x ∉ titles r := h ▸ hnd.1
      have hz : (adjOf r cur).count x = 0 := count_adjOf_of_not_mem r cur x hx
      simp only [adjOf] at hz
      rw [hz, count_map_const, if_pos h]
      have : depsOf (t :: r) x = t.dependencies := by
        simp [depsOf, findTask, List.find?_cons_of_pos, h]
      rw [this, length_filter_eq_count]
      omega
    · rw [count_map_const, if_neg h]
      have : depsOf (t :: r) x = depsOf r x := by
        simp only [depsOf, findTask]
        rw [List.find?_cons_of_neg _ (by simp [h])]
      rw [this, ← ih hnd.2]
      simp [adjOf]

lemma countRem_zero_iff (tm : List Task) (topo : List String) (x : String) :
    countRem tm topo x = 0 ↔ ∀ d ∈ depsOf tm x, d ∈ topo := by
  simp only [countRem, List.length_eq_zero, List.filter_eq_nil_iff]
  constructor
  · intro h d hd
    have := h d hd
    simpa using this
  · intro h d hd
    simpa using h d hd

lemma filter_notmem_append_single (l topo : List String) (cur : String)
    (h : cur ∉ topo) :
    ((l.filter (fun d => ¬ (topo ++ [cur]).contains d)).length + l.count cur)
      = (l.filter (fun d => ¬ topo.contains d)).length := by
  induction l with
  | nil => simp
  | cons d r ih =>
    simp only [List.filter_cons, List.count_cons]
    by_cases hd : d = cur
    · subst hd
      have c1 : (decide ¬((topo ++ [d]).contains d = true)) = false := by
        simp [List.elem_eq_mem]
      have c2 : (decide ¬(topo.contains d = true)) = true := by
        simp [List.elem_eq_mem, h]
      rw [c1, c2]
      simp only [Bool.false_eq_true, if_false, if_pos rfl, List.length_cons,
        beq_self_eq_true, if_true]
      omega
    · have c3 : (decide ¬((topo ++ [cur]).contains d = true))
          = (decide ¬(topo.contains d = true)) := by
        simp [List.elem_eq_mem, hd]
      have c4 : (d == cur) = false := beq_eq_false_iff_ne.mpr hd
      rw [c3, c4]
      by_cases h2 : topo.contains d
      · have hm : d ∈ topo := by simpa [List.elem_eq_mem] using h2
        have c5 : (decide ¬(topo.contains d = true)) = false := by
          simp [List.elem_eq_mem, hm]
        rw [c5]
        simp only [Bool.false_eq_true, if_false]
        omega
      · have hm : d ∉ topo := by simpa [List.elem_eq_mem] using h2
        have c5 : (decide ¬(topo.contains d = true)) = true := by
          simp [List.elem_eq_mem, hm]
        rw [c5]
        simp only [if_pos trivial, if_pos rfl, List.length_cons, Bool.false_eq_true,
          if_false, if_true]
        omega

lemma countRem_append_single (tm : List Task) (topo : List String) (cur x : String)
    (h : cur ∉ topo) :
    countRem tm (topo ++ [cur]) x + (depsOf tm x).count cur = countRem tm topo x := by
  simpa [countRem] using filter_notmem_append_single (depsOf tm x) topo cur h

/-! ### Registry facts -/

/-- Relation between a raw descriptor and its normalized task. -/
def NormRel (r : RawTask) (t : Task) : Prop :=
  t.title = r.title ∧ t.estimatedHours = r.estimatedHours ∧
    t.dependencies = r.deps ∧ parseDate r.dueDate = some t.dueDate ∧
    r.title ≠ "" ∧ 0 < r.estimatedHours

lemma buildTaskMap_ok (ts : List RawTask) (acc tm : List Task)
    (h : buildTaskMap ts acc = .ok tm) :
    ∃ tl, tm = acc ++ tl ∧ List.Forall₂ NormRel ts tl := by
  induction ts generalizing acc with
  | nil =>
    simp only [buildTaskMap] at h
    exact ⟨[], by simpa using (Except.ok.inj h).symm, List.Forall₂.nil⟩
  | cons t ts ih =>
    simp only [buildTaskMap] at h
    by_cases h1 : t.title = "" ∨ t.estimatedHours ≤ 0
    · rw [if_pos h1] at h; simp at h
    · rw [if_neg h1] at h
      cases hp : parseDate t.dueDate with
      | none => rw [hp] at h; simp at h
      | some due =>
        rw [hp] at h
        dsimp only at h
        by_cases h2 : ((acc.map Task.title).contains t.title : Bool)
        · rw [if_pos h2] at h; simp at h
        · rw [if_neg h2] at h
          obtain ⟨tl, htl, hf⟩ := ih _ h
          push_neg at h1
          refine ⟨⟨t.title, t.estimatedHours, due, t.deps⟩ :: tl, ?_, ?_⟩
          · simpa [List.append_assoc] using htl
          · exact List.Forall₂.cons ⟨rfl, rfl, rfl, hp, h1.1, h1.2⟩ hf

lemma buildTaskMap_ok_nodup (ts : List RawTask) (acc tm : List Task)
    (h : buildTaskMap ts acc = .ok tm)
    (hacc : (acc.map Task.title).Nodup) : (tm.map Task.title).Nodup := by
  induction ts generalizing acc with
  | nil =>
    simp only [buildTaskMap] at h
    exact (Except.ok.inj h) ▸ hacc
  | cons t ts ih =>
    simp only [buildTaskMap] at h
    by_cases h1 : t.title = "" ∨ t.estimatedHours ≤ 0
    · rw [if_pos h1] at h; simp at h
    · rw [if_neg h1] at h
      cases hp : parseDate t.dueDate with
      | none => rw [hp] at h; simp at h
      | some due =>
        rw [hp] at h
        dsimp only at h
        by_cases h2 : ((acc.map Task.title).contains t.title : Bool)
        · rw [if_pos h2] at h; simp at h
        · rw [if_neg h2] at h
          refine ih _ h ?_
          have hmem : t.title ∉ acc.map Task.title := by
            simpa [List.elem_eq_mem] using h2
          simpa [List.map_append] using List.Nodup.append hacc (by simp)
            (by simpa [List.disjoint_singleton] using hmem)

/-- Titles are preserved by normalization. -/
lemma forall2_titles (ts : List RawTask) (tl : List Task)
    (h : List.Forall₂ NormRel ts tl) :
    tl.map Task.title = ts.map RawTask.title := by
  induction h with
  | nil => rfl
  | cons hr _ ih => simp [ih, hr.1]

lemma badDep_iff (tm : List Task) (t : Task) (d : String) :
    badDep tm t d = true ↔ (d ∉ titles tm ∨ d = t.title) := by
  simp [badDep, List.elem_eq_mem, titles]

lemma checkDeps_ok_iff (tm : List Task) :
    checkDeps tm = .ok () ↔
      ∀ t ∈ tm, ∀ d ∈ t.dependencies, d ∈ titles tm ∧ d ≠ t.title := by
  unfold checkDeps
  cases hf : tm.find? (fun t => t.dependencies.any (badDep tm t)) with
  | none =>
    constructor
    · intro _ t ht d hd
      have hnp := List.find?_eq_none.mp hf t ht
      have hnb : ¬ (badDep tm t d = true) := by
        intro hb
        exact absurd (List.any_eq_true.mpr ⟨d, hd, hb⟩) (by simpa using hnp)
      rw [badDep_iff] at hnb
      push_neg at hnb
      exact hnb
    · intro _; rfl
  | some t =>
    have hpt := List.find?_some hf
    have ht : t ∈ tm := List.mem_of_find?_eq_some hf
    obtain ⟨d, hd, hbd⟩ := List.any_eq_true.mp hpt
    cases hdf : t.dependencies.find? (badDep tm t) with
    | none =>
      exact absurd hbd (by simpa using (List.find?_eq_none.mp hdf d hd))
    | some d0 =>
      have hd0 : badDep tm t d0 = true := List.find?_some hdf
      have hd0m : d0 ∈ t.dependencies := List.mem_of_find?_eq_some hdf
      constructor
      · intro hok
        simp only [hdf] at hok
        split_ifs at hok <;> simp at hok
      · intro hall
        exfalso
        rw [badDep_iff] at hd0
        obtain ⟨hin, hne⟩ := hall t ht d0 hd0m
        rcases hd0 with h | h
        · exact h hin
        · exact hne h

/-! ### Kahn loop invariants -/

lemma cmpLE_refl (tm : List Task) (a : String) : cmpLE tm a a = true := by
  rw [cmpLE_iff]
  exact Or.inr ⟨rfl, Or.inr ⟨rfl, le_refl a⟩⟩

lemma countRem_le_append (tm : List Task) (topo : List String) (cur x : String)
    (h : cur ∉ topo) : countRem tm (topo ++ [cur]) x ≤ countRem tm topo x := by
  have := countRem_append_single tm topo cur x h
  omega

/-- Static context provided by a validated task map. -/
structure TMCtx (tm : List Task) : Prop where
  nodup : (titles tm).Nodup
  closed : ∀ t ∈ tm, ∀ d ∈ t.dependencies, d ∈ titles tm
  noself : ∀ t ∈ tm, ∀ d ∈ t.dependencies, d ≠ t.title

/-- Invariant of the source's Kahn loop between iterations. -/
structure KInv (tm : List Task) (st : KState) : Prop where
  keys : st.indeg.map Prod.fst = titles tm
  ival : ∀ x ∈ titles tm, alGet st.indeg x = some ((countRem tm st.topo x : ℤ))
  nod : (st.topo ++ st.available).Nodup
  sub : ∀ x ∈ st.topo ++ st.available, x ∈ titles tm
  achar : ∀ x ∈ titles tm,
    (x ∈ st.available ↔ x ∉ st.topo ∧ countRem tm st.topo x = 0)
  asort : st.available.Pairwise (fun a b => cmpLE tm a b = true)
  tdeps : ∀ x ∈ st.topo, ∀ d ∈ depsOf tm x, d ∈ st.topo
  tord : st.topo.Pairwise (fun a b => b ∉ depsOf tm a)

/-- Invariant holding during the source's `for (const nb of adj.get(cur))`
fold, with `rem` the suffix of neighbours still to process. -/
structure FInv (tm : List Task) (rem : List String) (st : KState) : Prop where
  keys : st.indeg.map Prod.fst = titles tm
  ival : ∀ x ∈ titles tm,
    alGet st.indeg x = some ((countRem tm st.topo x + rem.count x : ℤ))
  nod : (st.topo ++ st.available).Nodup
  sub : ∀ x ∈ st.topo ++ st.available, x ∈ titles tm
  achar : ∀ x ∈ titles tm,
    (x ∈ st.available ↔ x ∉ st.topo ∧ countRem tm st.topo x = 0 ∧ rem.count x = 0)
  asort : st.available.Pairwise (fun a b => cmpLE tm a b = true)
  tdeps : ∀ x ∈ st.topo, ∀ d ∈ depsOf tm x, d ∈ st.topo
  tord : st.topo.Pairwise (fun a b => b ∉ depsOf tm a)
  remsub : ∀ x ∈ rem, x ∈ titles tm ∧ x ∉ st.topo

/-- Membership in `adjOf` unpacked. -/
lemma adjOf_mem (tm : List Task) (cur x : String) (h : x ∈ adjOf tm cur)
    (hnd : (titles tm).Nodup) : x ∈ titles tm ∧ cur ∈ depsOf tm x := by
  simp only [adjOf, List.mem_flatMap] at h
  obtain ⟨t, ht, hx⟩ := h
  simp only [List.mem_map, List.mem_filter, decide_eq_true_eq] at hx
  obtain ⟨d, ⟨hdmem, hdeq⟩, rfl⟩ := hx
  subst hdeq
  exact ⟨List.mem_map_of_mem Task.title ht,
    (depsOf_of_mem tm t ht hnd).symm ▸ hdmem⟩

/-- Popping the head of the ready list establishes the fold invariant. -/
lemma KInv_pop (tm : List Task) (ctx : TMCtx tm) (st : KState)
    (inv : KInv tm st) (cur : String) (rest : List String)
    (h : st.available = cur :: rest) :
    FInv tm (adjOf tm cur) ⟨st.indeg, rest, st.topo ++ [cur]⟩ := by
  have hcura : cur ∈ st.available := h ▸ List.mem_cons_self cur rest
  have hcurT : cur ∈ titles tm := inv.sub cur (List.mem_append_right _ hcura)
  have hcurnt : cur ∉ st.topo := by
    intro hc
    have := inv.nod
    rw [List.nodup_append] at this
    exact this.2.2 hc hcura
  have hcurdeps : ∀ d ∈ depsOf tm cur, d ∈ st.topo := by
    intro d hd
    have := (inv.achar cur hcurT).mp hcura
    exact (countRem_zero_iff tm st.topo cur).mp this.2 d hd
  have hrestnodup : (cur :: rest).Nodup := by
    have := inv.nod
    rw [List.nodup_append] at this
    exact h ▸ this.2.1
  have hAdjNotTopo : ∀ x ∈ adjOf tm cur, x ∉ st.topo ++ [cur] := by
    intro x hx hmem
    obtain ⟨hxT, hcd⟩ := adjOf_mem tm cur x hx ctx.nodup
    rcases List.mem_append.mp hmem with hxt | hxc
    · exact hcurnt (inv.tdeps x hxt cur hcd)
    · have hxcur : x = cur := by simpa using hxc
      subst hxcur
      obtain ⟨t, ht, hteq⟩ := List.mem_map.mp hxT
      rw [← hteq, depsOf_of_mem tm t ht ctx.nodup] at hcd
      exact ctx.noself t ht t.title hcd rfl
  refine ⟨inv.keys, ?_, ?_, ?_, ?_, ?_, ?_, ?_, ?_⟩
  · -- ival
    dsimp only
    intro x hx
    have hold := inv.ival x hx
    have hc := countRem_append_single tm st.topo cur x hcurnt
    have hcnt := count_adjOf tm cur x ctx.nodup
    rw [hold]
    congr 1
    omega
  · -- nod
    dsimp only
    have : st.topo ++ [cur] ++ rest = st.topo ++ (cur :: rest) := by
      simp
    rw [this]
    exact h ▸ inv.nod
  · -- sub
    dsimp only
    intro x hx
    have : x ∈ st.topo ++ st.available := by
      rcases List.mem_append.mp hx with hx1 | hx2
      · rcases List.mem_append.mp hx1 with hx3 | hx4
        · exact List.mem_append_left _ hx3
        · have : x = cur := by simpa using hx4
          exact this ▸ List.mem_append_right _ hcura
      · exact List.mem_append_right _ (h ▸ List.mem_cons_of_mem cur hx2)
    exact inv.sub x this
  · -- achar
    dsimp only
    intro x hx
    constructor
    · intro hxr
      have hxa : x ∈ st.available := h ▸ List.mem_cons_of_mem cur hxr
      have hold := (inv.achar x hx).mp hxa
      have hxne : x ≠ cur := by
        intro he
        subst he
        exact (List.nodup_cons.mp hrestnodup).1 hxr
      refine ⟨?_, ?_, ?_⟩
      · intro hc
        rcases List.mem_append.mp hc with hc1 | hc2
        · exact hold.1 hc1
        · exact hxne (by simpa using hc2)
      · have := countRem_le_append tm st.topo cur x hcurnt
        omega
      · have hc := countRem_append_single tm st.topo cur x hcurnt
        have hcnt := count_adjOf tm cur x ctx.nodup
        omega
    · rintro ⟨hnt, hcr, hcnt0⟩
      have hxne : x ≠ cur := by
        rintro rfl
        exact hnt (List.mem_append_right _ (List.mem_singleton_self x))
      have hnt0 : x ∉ st.topo := fun hc => hnt (List.mem_append_left _ hc)
      have hc := countRem_append_single tm st.topo cur x hcurnt
      have hcnt := count_adjOf tm cur x ctx.nodup
      have hzero : countRem tm st.topo x = 0 := by omega
      have hxa := (inv.achar x hx).mpr ⟨hnt0, hzero⟩
      rw [h] at hxa
      rcases List.mem_cons.mp hxa with he | hr
      · exact absurd he hxne
      · exact hr
  · -- asort
    dsimp only
    have := inv.asort
    rw [h] at this
    exact (List.pairwise_cons.mp this).2
  · -- tdeps
    dsimp only
    intro x hxt d hd
    rcases List.mem_append.mp hxt with hx1 | hx2
    · exact List.mem_append_left _ (inv.tdeps x hx1 d hd)
    · have : x = cur := by simpa using hx2
      subst this
      exact List.mem_append_left _ (hcurdeps d hd)
  · -- tord
    dsimp only
    rw [List.pairwise_append]
    refine ⟨inv.tord, List.pairwise_singleton _ _, ?_⟩
    intro a ha b hb
    have : b = cur := by simpa using hb
    subst this
    intro hbd
    exact hcurnt (inv.tdeps a ha b hbd)
  · -- remsub
    dsimp only
    intro x hx
    have hmem := adjOf_mem tm cur x hx ctx.nodup
    refine ⟨hmem.1, ?_⟩
    exact fun hc => hAdjNotTopo x hx hc

/-- One neighbour relaxation preserves the fold invariant. -/
lemma FInv_step (tm : List Task) (nb : String) (rem : List String) (st : KState)
    (inv : FInv tm (nb :: rem) st) : FInv tm rem (relaxNb tm st nb) := by
  obtain ⟨hnbT, hnbnt⟩ := inv.remsub nb (List.mem_cons_self nb rem)
  have hold := inv.ival nb hnbT
  have hcnt_cons : (nb :: rem).count nb = rem.count nb + 1 := by
    simp [List.count_cons]
  have hdec : alGet (alDec st.indeg nb) nb
      = some ((countRem tm st.topo nb + rem.count nb : ℤ)) := by
    rw [alGet_alDec_self, hold]
    simp only [Option.map_some']
    congr 1
    push_cast [hcnt_cons]
    ring
  have hnbavail : nb ∉ st.available := by
    intro hc
    have := (inv.achar nb hnbT).mp hc
    omega
  unfold relaxNb
  by_cases hz : alGet (alDec st.indeg nb) nb = some 0
  · -- entry reached exactly 0: push nb and re-sort
    rw [if_pos hz]
    have hzero : countRem tm st.topo nb = 0 ∧ rem.count nb = 0 := by
      rw [hdec] at hz
      have := Option.some.inj hz
      constructor <;> omega
    have hperm : (sortBy (cmpLE tm) (st.available ++ [nb])).Perm
        (st.available ++ [nb]) := sortBy_perm _ _
    have hmem_sort : ∀ y, y ∈ sortBy (cmpLE tm) (st.available ++ [nb])
        ↔ (y ∈ st.available ∨ y = nb) := by
      intro y
      rw [hperm.mem_iff]
      simp
    refine ⟨?_, ?_, ?_, ?_, ?_, ?_, inv.tdeps, inv.tord, ?_⟩
    · dsimp only
      rw [alDec_keys]
      exact inv.keys
    · dsimp only
      intro x hx
      by_cases hxn : x = nb
      · subst hxn
        rw [hdec]
      · rw [alGet_alDec_other st.indeg nb x hxn, inv.ival x hx]
        congr 1
        have : (nb :: rem).count x = rem.count x := by
          simp [List.count_cons, hxn]
        omega
    · dsimp only
      rw [List.nodup_append]
      have hnod := inv.nod
      rw [List.nodup_append] at hnod
      refine ⟨hnod.1, hperm.nodup_iff.mpr ?_, ?_⟩
      · rw [List.nodup_append]
        exact ⟨hnod.2.1, List.nodup_singleton nb,
          by simpa [List.disjoint_singleton] using hnbavail⟩
      · intro a ha hc
        rcases (hmem_sort a).mp hc with h2 | h2
        · exact hnod.2.2 ha h2
        · exact hnbnt (h2 ▸ ha)
    · dsimp only
      intro x hx
      rcases List.mem_append.mp hx with h1 | h2
      · exact inv.sub x (List.mem_append_left _ h1)
      · rcases (hmem_sort x).mp h2 with h3 | h3
        · exact inv.sub x (List.mem_append_right _ h3)
        · exact h3 ▸ hnbT
    · dsimp only
      intro x hx
      rw [hmem_sort x]
      constructor
      · rintro (h1 | h1)
        · have := (inv.achar x hx).mp h1
          have hxcnt : (nb :: rem).count x = 0 := this.2.2
          have : rem.count x = 0 := by
            by_cases hxn : x = nb
            · subst hxn; omega
            · simpa [List.count_cons, hxn] using hxcnt
          exact ⟨((inv.achar x hx).mp h1).1, ((inv.achar x hx).mp h1).2.1, this⟩
        · subst h1
          exact ⟨hnbnt, hzero.1, hzero.2⟩
      · rintro ⟨h1, h2, h3⟩
        by_cases hxn : x = nb
        · exact Or.inr hxn
        · left
          refine (inv.achar x hx).mpr ⟨h1, h2, ?_⟩
          simp [List.count_cons, hxn, h3]
    · dsimp only
      exact sortBy_pairwise (cmpLE tm) (cmpLE_total tm) (cmpLE_trans tm) _
    · dsimp only
      intro x hx
      exact inv.remsub x (List.mem_cons_of_mem nb hx)
  · -- no push
    rw [if_neg hz]
    refine ⟨?_, ?_, ?_, ?_, ?_, inv.asort, inv.tdeps, inv.tord, ?_⟩
    · dsimp only
      rw [alDec_keys]
      exact inv.keys
    · dsimp only
      intro x hx
      by_cases hxn : x = nb
      · subst hxn
        rw [hdec]
      · rw [alGet_alDec_other st.indeg nb x hxn, inv.ival x hx]
        congr 1
        have : (nb :: rem).count x = rem.count x := by
          simp [List.count_cons, hxn]
        omega
    · dsimp only
      exact inv.nod
    · dsimp only
      exact inv.sub
    · dsimp only
      intro x hx
      constructor
      · intro h1
        have := (inv.achar x hx).mp h1
        have hxcnt : (nb :: rem).count x = 0 := this.2.2
        have hxn : x ≠ nb := by
          intro he
          subst he
          exact hnbavail h1
        refine ⟨this.1, this.2.1, ?_⟩
        simpa [List.count_cons, hxn] using hxcnt
      · rintro ⟨h1, h2, h3⟩
        have hxn : x ≠ nb := by
          intro he
          subst he
          rw [hdec] at hz
          exact hz (by rw [h2, h3]; norm_num)
        refine (inv.achar x hx).mpr ⟨h1, h2, ?_⟩
        simp [List.count_cons, hxn, h3]
    · dsimp only
      intro x hx
      exact inv.remsub x (List.mem_cons_of_mem nb hx)

/-- Folding all neighbour relaxations preserves the invariant down to the
empty remainder. -/
lemma FInv_fold (tm : List Task) (nbs : List String) (st : KState)
    (inv : FInv tm nbs st) : FInv tm [] (nbs.foldl (relaxNb tm) st) := by
  induction nbs generalizing st with
  | nil => exact inv
  | cons nb rem ih => exact ih _ (FInv_step tm nb rem st inv)

/-- The fold invariant with empty remainder is the loop invariant. -/
lemma FInv_nil_KInv (tm : List Task) (st : KState) (inv : FInv tm [] st) :
    KInv tm st := by
  refine ⟨inv.keys, ?_, inv.nod, inv.sub, ?_, inv.asort, inv.tdeps, inv.tord⟩
  · intro x hx
    have := inv.ival x hx
    simpa using this
  · intro x hx
    have := inv.achar x hx
    simpa using this

lemma foldl_relax_topo (tm : List Task) (nbs : List String) (st : KState) :
    (nbs.foldl (relaxNb tm) st).topo = st.topo := by
  induction nbs generalizing st with
  | nil => rfl
  | cons nb rem ih =>
    rw [List.foldl_cons, ih]
    unfold relaxNb
    by_cases h : alGet (alDec st.indeg nb) nb = some 0 <;> simp [h]

lemma kahnLoop_eq_nil (tm : List Task) (st : KState) (h : st.available = []) :
    kahnLoop tm st = st.topo := by
  obtain ⟨indeg, avail, topo⟩ := st
  simp only at h
  subst h
  rw [kahnLoop]

lemma kahnLoop_eq_cons (tm : List Task) (st : KState) (cur : String)
    (rest : List String) (h : st.available = cur :: rest) :
    kahnLoop tm st
      = kahnLoop tm ((adjOf tm cur).foldl (relaxNb tm) ⟨st.indeg, rest, st.topo ++ [cur]⟩) := by
  obtain ⟨indeg, avail, topo⟩ := st
  simp only at h
  subst h
  rw [kahnLoop]

/-- Master specification of the source's Kahn loop, proved by induction on
the loop measure: the emitted order extends the current one; the loop ends
in an invariant state with an empty ready list; and from the current point
on, every emitted task is ready after the prefix before it and minimal
under the comparator among all ready tasks. -/
lemma kahnLoop_master (tm : List Task) (ctx : TMCtx tm) :
    ∀ n st, kahnMeasure st ≤ n → KInv tm st →
      (∃ tl, kahnLoop tm st = st.topo ++ tl) ∧
      (∃ stf : KState, KInv tm stf ∧ stf.available = [] ∧
        stf.topo = kahnLoop tm st) ∧
      (∀ i, st.topo.length ≤ i → ∀ hi : i < (kahnLoop tm st).length,
        readyAfter tm ((kahnLoop tm st).take i) ((kahnLoop tm st).get ⟨i, hi⟩) ∧
        ∀ y, readyAfter tm ((kahnLoop tm st).take i) y →
          cmpLE tm ((kahnLoop tm st).get ⟨i, hi⟩) y = true) := by
  intro n
  induction n with
  | zero =>
    intro st hm inv
    have havail : st.available = [] := by
      have : st.available.length = 0 := by
        simp only [kahnMeasure] at hm
        omega
      exact List.length_eq_zero.mp this
    have heq := kahnLoop_eq_nil tm st havail
    refine ⟨⟨[], by simp [heq]⟩, ⟨st, inv, havail, heq.symm⟩, ?_⟩
    intro i hle hi
    rw [heq] at hi
    omega
  | succ n ih =>
    intro st hm inv
    cases havail : st.available with
    | nil =>
      have heq := kahnLoop_eq_nil tm st havail
      refine ⟨⟨[], by simp [heq]⟩, ⟨st, inv, havail, heq.symm⟩, ?_⟩
      intro i hle hi
      rw [heq] at hi
      omega
    | cons cur rest =>
      obtain ⟨st2, hst2⟩ : ∃ st2, st2
          = (adjOf tm cur).foldl (relaxNb tm) ⟨st.indeg, rest, st.topo ++ [cur]⟩ :=
        ⟨_, rfl⟩
      have heq := kahnLoop_eq_cons tm st cur rest havail
      rw [← hst2] at heq
      have hinv2 : KInv tm st2 := by
        rw [hst2]
        exact FInv_nil_KInv tm _ (FInv_fold tm _ _ (KInv_pop tm ctx st inv cur rest havail))
      have htopo2 : st2.topo = st.topo ++ [cur] := by
        rw [hst2, foldl_relax_topo]
      have hm2 : kahnMeasure st2 ≤ n := by
        rw [hst2]
        have h1 := foldl_relax_measure_le tm (adjOf tm cur)
          ⟨st.indeg, rest, st.topo ++ [cur]⟩
        have h3 : st.available.length = rest.length + 1 := by rw [havail]; rfl
        simp only [kahnMeasure] at h1 hm ⊢
        omega
      obtain ⟨⟨tl2, htl2⟩, hfin, hpos⟩ := ih st2 hm2 hinv2
      -- facts about the head `cur`
      have hcura : cur ∈ st.available := havail ▸ List.mem_cons_self cur rest
      have hcurT : cur ∈ titles tm := inv.sub cur (List.mem_append_right _ hcura)
      have hcurnt : cur ∉ st.topo := by
        intro hc
        have hnod := inv.nod
        rw [List.nodup_append] at hnod
        exact hnod.2.2 hc hcura
      have hchar := (inv.achar cur hcurT).mp hcura
      have hR : kahnLoop tm st = st.topo ++ (cur :: tl2) := by
        rw [heq, htl2, htopo2]
        simp
      refine ⟨⟨cur :: tl2, hR⟩, ?_, ?_⟩
      · obtain ⟨stf, h1, h2, h3⟩ := hfin
        exact ⟨stf, h1, h2, h3.trans heq.symm⟩
      · intro i hle hi
        by_cases hik : i = st.topo.length
        · subst hik
          have htake : (kahnLoop tm st).take st.topo.length = st.topo := by
            rw [hR]
            exact List.take_left st.topo (cur :: tl2)
          have hget : (kahnLoop tm st).get ⟨st.topo.length, hi⟩ = cur := by
            have h1 : (kahnLoop tm st)[st.topo.length]? = some cur := by
              rw [hR, List.getElem?_append_right (le_refl st.topo.length)]
              simp
            have h2 := List.getElem?_eq_getElem hi
            rw [List.get_eq_getElem]
            exact Option.some.inj (h2.symm.trans h1)
          rw [htake, hget]
          constructor
          · exact ⟨hcurT, hcurnt, (countRem_zero_iff tm st.topo cur).mp hchar.2⟩
          · intro y hy
            obtain ⟨hyT, hynt, hydeps⟩ := hy
            have hy0 : countRem tm st.topo y = 0 :=
              (countRem_zero_iff tm st.topo y).mpr hydeps
            have hya : y ∈ st.available := (inv.achar y hyT).mpr ⟨hynt, hy0⟩
            rw [havail] at hya
            rcases List.mem_cons.mp hya with he | hr
            · exact he ▸ cmpLE_refl tm cur
            · have hs := inv.asort
              rw [havail, List.pairwise_cons] at hs
              exact hs.1 y hr
        · have hle2 : st2.topo.length ≤ i := by
            rw [htopo2]
            simp only [List.length_append, List.length_cons, List.length_nil]
            omega
          have hi2 : i < (kahnLoop tm st2).length := by rw [← heq]; exact hi
          obtain ⟨ha, hb⟩ := hpos i hle2 hi2
          have hgeteq : (kahnLoop tm st2).get ⟨i, hi2⟩ = (kahnLoop tm st).get ⟨i, hi⟩ := by
            have h1 : (kahnLoop tm st)[i]? = (kahnLoop tm st2)[i]? := by rw [heq]
            have e1 := List.getElem?_eq_getElem hi
            have e2 := List.getElem?_eq_getElem hi2
            rw [List.get_eq_getElem, List.get_eq_getElem]
            exact Option.some.inj (e2.symm.trans (h1.symm.trans e1))
          have htak : (kahnLoop tm st2).take i = (kahnLoop tm st).take i := by
            rw [heq]
          rw [hgeteq, htak] at ha hb
          exact ⟨ha, hb⟩

lemma countRem_nil (tm : List Task) (x : String) :
    countRem tm [] x = (depsOf tm x).length := by
  simp [countRem]

lemma KInv_init (tm : List Task) (ctx : TMCtx tm) : KInv tm (kahnInit tm) := by
  have hkeys : (tm.map (fun t => (t.title, (t.dependencies.length : Int)))).map Prod.fst
      = titles tm := by
    simp [titles]
  have hsortmem : ∀ x, x ∈ (kahnInit tm).available ↔
      x ∈ ((tm.map (fun t => (t.title, (t.dependencies.length : Int)))).filter
        (fun p => p.2 = 0)).map (fun p => p.1) := by
    intro x
    exact (sortBy_perm _ _).mem_iff
  refine ⟨hkeys, ?_, ?_, ?_, ?_, ?_, ?_, ?_⟩
  · -- ival
    intro x hx
    simp only [kahnInit]
    rw [alGet_map_task]
    obtain ⟨t, ht⟩ := Option.isSome_iff_exists.mp ((findTask_isSome_iff tm x).mpr hx)
    rw [ht, countRem_nil]
    simp [depsOf, ht]
  · -- nod
    simp only [kahnInit, List.nil_append]
    refine (sortBy_perm _ _).nodup_iff.mpr ?_
    have hsl : List.Sublist
        (((tm.map (fun t => (t.title, (t.dependencies.length : Int)))).filter
          (fun p => p.2 = 0)).map (fun p => p.1))
        ((tm.map (fun t => (t.title, (t.dependencies.length : Int)))).map Prod.fst) := by
      apply List.Sublist.map
      apply List.filter_sublist
    rw [hkeys] at hsl
    exact ctx.nodup.sublist hsl
  · -- sub
    intro x hx
    simp only [kahnInit, List.nil_append] at hx
    have := (hsortmem x).mp hx
    obtain ⟨p, hpf, hpx⟩ := List.mem_map.mp this
    have hpi := (List.mem_filter.mp hpf).1
    obtain ⟨t, htm, hteq⟩ := List.mem_map.mp hpi
    rw [← hpx, ← hteq]
    exact List.mem_map_of_mem Task.title htm
  · -- achar
    intro x hx
    simp only [kahnInit]
    constructor
    · intro hmem
      have := (hsortmem x).mp hmem
      obtain ⟨p, hpf, hpx⟩ := List.mem_map.mp this
      obtain ⟨hpi, hp0⟩ := List.mem_filter.mp hpf
      obtain ⟨t, htm, hteq⟩ := List.mem_map.mp hpi
      have hx0 : (t.dependencies.length : Int) = 0 := by
        have : p.2 = (t.dependencies.length : Int) := by rw [← hteq]
        simp only [decide_eq_true_eq] at hp0
        omega
      have hxt : t.title = x := by
        have : p.1 = t.title := by rw [← hteq]
        rw [← hpx, this]
      refine ⟨by simp, ?_⟩
      rw [countRem_nil, ← hxt, depsOf_of_mem tm t htm ctx.nodup]
      omega
    · rintro ⟨-, hc⟩
      rw [countRem_nil] at hc
      obtain ⟨t, ht⟩ := Option.isSome_iff_exists.mp ((findTask_isSome_iff tm x).mpr hx)
      have hdeps : depsOf tm x = t.dependencies := by simp [depsOf, ht]
      obtain ⟨htm, hxt⟩ := findTask_eq_some tm x t ht
      apply (sortBy_perm _ _).mem_iff.mpr
      refine List.mem_map.mpr ⟨(t.title, (t.dependencies.length : Int)), ?_, by
        simpa using hxt⟩
      refine List.mem_filter.mpr ⟨List.mem_map_of_mem _ htm, ?_⟩
      simp only [decide_eq_true_eq]
      rw [hdeps] at hc
      omega
  · -- asort
    simp only [kahnInit]
    exact sortBy_pairwise (cmpLE tm) (cmpLE_total tm) (cmpLE_trans tm) _
  · -- tdeps
    intro x hx
    simp only [kahnInit] at hx
    cases hx
  · -- tord
    simp only [kahnInit]
    exact List.Pairwise.nil

/-- The source's sequencer ends in an invariant state with an empty ready
list whose emitted order is `runSequencer tm`. -/
lemma runSequencer_final (tm : List Task) (ctx : TMCtx tm) :
    ∃ stf : KState, KInv tm stf ∧ stf.available = [] ∧
      stf.topo = runSequencer tm := by
  obtain ⟨_, h2, _⟩ := kahnLoop_master tm ctx (kahnMeasure (kahnInit tm)) (kahnInit tm)
    le_rfl (KInv_init tm ctx)
  exact h2

/-- Positional minimality: each emitted task is ready after the prefix
before it, and minimal under the comparator among all ready tasks. -/
lemma runSequencer_pos (tm : List Task) (ctx : TMCtx tm) :
    ∀ i, ∀ hi : i < (runSequencer tm).length,
      readyAfter tm ((runSequencer tm).take i) ((runSequencer tm).get ⟨i, hi⟩) ∧
      ∀ y, readyAfter tm ((runSequencer tm).take i) y →
        cmpLE tm ((runSequencer tm).get ⟨i, hi⟩) y = true := by
  obtain ⟨_, _, h3⟩ := kahnLoop_master tm ctx (kahnMeasure (kahnInit tm)) (kahnInit tm)
    le_rfl (KInv_init tm ctx)
  intro i hi
  exact h3 i (by simp [kahnInit]) hi

lemma runSequencer_nodup (tm : List Task) (ctx : TMCtx tm) :
    (runSequencer tm).Nodup := by
  obtain ⟨stf, hinv, hav, htp⟩ := runSequencer_final tm ctx
  have := hinv.nod
  rw [hav, List.append_nil] at this
  exact htp ▸ this

lemma runSequencer_sub (tm : List Task) (ctx : TMCtx tm) :
    ∀ x ∈ runSequencer tm, x ∈ titles tm := by
  obtain ⟨stf, hinv, hav, htp⟩ := runSequencer_final tm ctx
  intro x hx
  exact hinv.sub x (List.mem_append_left _ (htp ▸ hx))

lemma runSequencer_tdeps (tm : List Task) (ctx : TMCtx tm) :
    ∀ x ∈ runSequencer tm, ∀ d ∈ depsOf tm x, d ∈ runSequencer tm := by
  obtain ⟨stf, hinv, hav, htp⟩ := runSequencer_final tm ctx
  intro x hx d hd
  exact htp ▸ hinv.tdeps x (htp ▸ hx) d hd

lemma runSequencer_tord (tm : List Task) (ctx : TMCtx tm) :
    (runSequencer tm).Pairwise (fun a b => b ∉ depsOf tm a) := by
  obtain ⟨stf, hinv, hav, htp⟩ := runSequencer_final tm ctx
  exact htp ▸ hinv.tord

lemma runSequencer_length_le (tm : List Task) (ctx : TMCtx tm) :
    (runSequencer tm).length ≤ tm.length := by
  have h := ((runSequencer_nodup tm ctx).subperm (runSequencer_sub tm ctx)).length_le
  simpa [titles] using h

lemma runSequencer_perm (tm : List Task) (ctx : TMCtx tm)
    (hlen : (runSequencer tm).length = tm.length) :
    (runSequencer tm).Perm (titles tm) := by
  refine ((runSequencer_nodup tm ctx).subperm
    (runSequencer_sub tm ctx)).perm_of_length_le ?_
  simp [titles, hlen]

/-- In a complete run, every dependency sits at a strictly smaller index
than its dependent. -/
lemma runSequencer_idx (tm : List Task) (ctx : TMCtx tm)
    (hlen : (runSequencer tm).length = tm.length) :
    ∀ x ∈ titles tm, ∀ d ∈ depsOf tm x,
      (runSequencer tm).indexOf d < (runSequencer tm).indexOf x := by
  intro x hx d hd
  have hperm := runSequencer_perm tm ctx hlen
  have hxR : x ∈ runSequencer tm := hperm.mem_iff.mpr hx
  have hdR : d ∈ runSequencer tm := runSequencer_tdeps tm ctx x hxR d hd
  have hnd := runSequencer_nodup tm ctx
  have hdx : d ≠ x := by
    obtain ⟨t, ht⟩ := Option.isSome_iff_exists.mp ((findTask_isSome_iff tm x).mpr hx)
    obtain ⟨htm, hxt⟩ := findTask_eq_some tm x t ht
    have : depsOf tm x = t.dependencies := by simp [depsOf, ht]
    exact hxt ▸ ctx.noself t htm d (this ▸ hd)
  have hiR := List.indexOf_lt_length.mpr hdR
  have hjR := List.indexOf_lt_length.mpr hxR
  rcases lt_trichotomy ((runSequencer tm).indexOf d) ((runSequencer tm).indexOf x)
    with h | h | h
  · exact h
  · exfalso
    apply hdx
    have h1 := List.getElem_indexOf hiR
    have h2 := List.getElem_indexOf hjR
    rw [← h1, ← h2]
    congr 1
  · exfalso
    have hp := List.pairwise_iff_getElem.mp (runSequencer_tord tm ctx)
      _ _ hjR hiR h
    rw [List.getElem_indexOf hjR, List.getElem_indexOf hiR] at hp
    exact hp hd

/-- In a complete run dependencies strictly precede their dependents. -/
lemma runSequencer_before (tm : List Task) (ctx : TMCtx tm)
    (hlen : (runSequencer tm).length = tm.length) :
    ∀ x ∈ titles tm, ∀ d ∈ depsOf tm x, listBefore d x (runSequencer tm) := by
  intro x hx d hd
  have hidx := runSequencer_idx tm ctx hlen x hx d hd
  have hperm := runSequencer_perm tm ctx hlen
  have hxR : x ∈ runSequencer tm := hperm.mem_iff.mpr hx
  have hdR : d ∈ runSequencer tm := runSequencer_tdeps tm ctx x hxR d hd
  have hiR := List.indexOf_lt_length.mpr hdR
  have hjR := List.indexOf_lt_length.mpr hxR
  refine ⟨(runSequencer tm).indexOf d, (runSequencer tm).indexOf x, hidx, ?_, ?_⟩
  · rw [List.getElem?_eq_getElem hiR, List.getElem_indexOf hiR]
  · rw [List.getElem?_eq_getElem hjR, List.getElem_indexOf hjR]

/-- A complete run rules out dependency cycles. -/
lemma runSequencer_no_cycle (tm : List Task) (ctx : TMCtx tm)
    (hlen : (runSequencer tm).length = tm.length) : ¬ hasCycle tm := by
  rintro ⟨x, hx, hcyc⟩
  have hone : ∀ a b, dependsOnR tm a b → a ∈ titles tm →
      b ∈ titles tm ∧
        (runSequencer tm).indexOf b < (runSequencer tm).indexOf a := by
    intro a b hab ha
    have hbT : b ∈ titles tm := by
      obtain ⟨t, ht⟩ := Option.isSome_iff_exists.mp ((findTask_isSome_iff tm a).mpr ha)
      obtain ⟨htm, hat⟩ := findTask_eq_some tm a t ht
      have hde : depsOf tm a = t.dependencies := by simp [depsOf, ht]
      exact ctx.closed t htm b (hde ▸ hab)
    exact ⟨hbT, runSequencer_idx tm ctx hlen a ha b hab⟩
  have hstep : ∀ a b, Relation.TransGen (dependsOnR tm) a b → a ∈ titles tm →
      b ∈ titles tm ∧
        (runSequencer tm).indexOf b < (runSequencer tm).indexOf a := by
    intro a b h
    induction h with
    | single hab =>
      intro ha
      exact hone _ _ hab ha
    | tail hab hbc ih =>
      intro ha
      obtain ⟨hbT, hlt⟩ := ih ha
      obtain ⟨hcT, hlt2⟩ := hone _ _ hbc hbT
      exact ⟨hcT, lt_trans hlt2 hlt⟩
  obtain ⟨-, hlt⟩ := hstep x x hcyc hx
  exact lt_irrefl _ hlt

/-- Proof device: pick a dependency of `x` that the sequencer failed to
emit (or `x` itself when none exists). -/
def cycleStep (tm : List Task) (R : List String) (x : String) : String :=
  match (depsOf tm x).find? (fun d => ¬ R.contains d) with
  | some d => d
  | none => x

/-- An incomplete run exhibits a dependency cycle: every unemitted task has
an unemitted dependency, and iterating that choice through finitely many
titles must repeat. -/
lemma runSequencer_incomplete_cycle (tm : List Task) (ctx : TMCtx tm)
    (hlen : (runSequencer tm).length ≠ tm.length) : hasCycle tm := by
  obtain ⟨stf, hinv, hav, htp⟩ := runSequencer_final tm ctx
  have hex : ∃ x ∈ titles tm, x ∉ runSequencer tm := by
    by_contra hc
    push_neg at hc
    have hsp := ctx.nodup.subperm hc
    have h1 := hsp.length_le
    have h2 := runSequencer_length_le tm ctx
    simp only [titles, List.length_map] at h1
    omega
  have hstep : ∀ x, x ∈ titles tm → x ∉ runSequencer tm →
      cycleStep tm (runSequencer tm) x ∈ titles tm ∧
      cycleStep tm (runSequencer tm) x ∉ runSequencer tm ∧
      dependsOnR tm x (cycleStep tm (runSequencer tm) x) := by
    intro x hxT hxR
    have hxtopo : x ∉ stf.topo := htp ▸ hxR
    have hachar := hinv.achar x hxT
    rw [hav] at hachar
    have hcr : countRem tm stf.topo x ≠ 0 := by
      intro h0
      exact List.not_mem_nil x (hachar.mpr ⟨hxtopo, h0⟩)
    cases hfd : (depsOf tm x).find? (fun d => ¬ (runSequencer tm).contains d) with
    | none =>
      exfalso
      apply hcr
      rw [countRem_zero_iff]
      intro d hd
      have := List.find?_eq_none.mp hfd d hd
      rw [htp]
      simpa [List.elem_eq_mem] using this
    | some d =>
      have hdmem : d ∈ depsOf tm x := List.mem_of_find?_eq_some hfd
      have hdpred := List.find?_some hfd
      have hdR : d ∉ runSequencer tm := by
        simpa [List.elem_eq_mem] using hdpred
      have hdT : d ∈ titles tm := by
        obtain ⟨t, ht⟩ := Option.isSome_iff_exists.mp ((findTask_isSome_iff tm x).mpr hxT)
        obtain ⟨htm, hxt⟩ := findTask_eq_some tm x t ht
        have hde : depsOf tm x = t.dependencies := by simp [depsOf, ht]
        exact ctx.closed t htm d (hde ▸ hdmem)
      have hcs : cycleStep tm (runSequencer tm) x = d := by
        unfold cycleStep
        rw [hfd]
      rw [hcs]
      exact ⟨hdT, hdR, hdmem⟩
  obtain ⟨x0, hx0T, hx0R⟩ := hex
  have hg : ∀ k, (cycleStep tm (runSequencer tm))^[k] x0 ∈ titles tm ∧
      (cycleStep tm (runSequencer tm))^[k] x0 ∉ runSequencer tm := by
    intro k
    induction k with
    | zero => exact ⟨hx0T, hx0R⟩
    | succ k ih =>
      rw [Function.iterate_succ_apply']
      exact ⟨(hstep _ ih.1 ih.2).1, (hstep _ ih.1 ih.2).2.1⟩
  have hgdep : ∀ k, dependsOnR tm ((cycleStep tm (runSequencer tm))^[k] x0)
      ((cycleStep tm (runSequencer tm))^[k + 1] x0) := by
    intro k
    rw [Function.iterate_succ_apply']
    exact (hstep _ (hg k).1 (hg k).2).2.2
  have htrans : ∀ a b : ℕ, a < b →
      Relation.TransGen (dependsOnR tm) ((cycleStep tm (runSequencer tm))^[a] x0)
        ((cycleStep tm (runSequencer tm))^[b] x0) := by
    intro a b hab
    induction b with
    | zero => omega
    | succ b ih =>
      by_cases hb : a = b
      · subst hb
        exact Relation.TransGen.single (hgdep a)
      · exact Relation.TransGen.tail (ih (by omega)) (hgdep b)
  have hmap : ∀ k ∈ Finset.range ((titles tm).toFinset.card + 1),
      (cycleStep tm (runSequencer tm))^[k] x0 ∈ (titles tm).toFinset :=
    fun k _ => List.mem_toFinset.mpr (hg k).1
  obtain ⟨i, hi, j, hj, hne, heqg⟩ :=
    Finset.exists_ne_map_eq_of_card_lt_of_maps_to (by simp) hmap
  rcases hne.lt_or_lt with hij | hij
  · refine ⟨(cycleStep tm (runSequencer tm))^[i] x0, (hg i).1, ?_⟩
    have := htrans i j hij
    rw [← heqg] at this
    exact this
  · refine ⟨(cycleStep tm (runSequencer tm))^[j] x0, (hg j).1, ?_⟩
    have := htrans j i hij
    rw [heqg] at this
    exact this

/-! ### Calendar and allocation helper lemmas -/

lemma nextWorkday_ge (d : ℕ) (wds : List String) (x : ℕ)
    (h : nextWorkday d wds = some x) : d ≤ x := by
  unfold nextWorkday at h
  have := List.mem_of_find?_eq_some h
  simp only [List.mem_map, List.mem_range] at this
  obtain ⟨k, -, hk⟩ := this
  omega

lemma nextWorkday_workday (d : ℕ) (wds : List String) (x : ℕ)
    (h : nextWorkday d wds = some x) : weekdayName x ∈ wds := by
  have := List.find?_some h
  simpa [List.elem_eq_mem] using this

lemma weekday_mem_index (w : String) (hw : w ∈ WEEKDAY_NAME) :
    ∃ i, i < 7 ∧ WEEKDAY_NAME.getD i "" = w := by
  simp only [WEEKDAY_NAME, List.mem_cons, List.not_mem_nil, or_false] at hw
  rcases hw with rfl | rfl | rfl | rfl | rfl | rfl | rfl
  · exact ⟨0, by norm_num, rfl⟩
  · exact ⟨1, by norm_num, rfl⟩
  · exact ⟨2, by norm_num, rfl⟩
  · exact ⟨3, by norm_num, rfl⟩
  · exact ⟨4, by norm_num, rfl⟩
  · exact ⟨5, by norm_num, rfl⟩
  · exact ⟨6, by norm_num, rfl⟩

lemma nextWorkday_isSome (d : ℕ) (wds : List String) (h : hasRealWorkday wds) :
    (nextWorkday d wds).isSome := by
  obtain ⟨w, hwds, hwn⟩ := h
  obtain ⟨i, hi7, hieq⟩ := weekday_mem_index w hwn
  have hr : (d + 6) % 7 < 7 := Nat.mod_lt _ (by norm_num)
  refine Option.isSome_iff_exists.mpr ?_
  have hk7 : (i + 7 - (d + 6) % 7) % 7 < 7 := Nat.mod_lt _ (by norm_num)
  have hkey : (d + ((i + 7 - (d + 6) % 7) % 7) + 6) % 7 = i := by omega
  have hmem : d + ((i + 7 - (d + 6) % 7) % 7)
      ∈ (List.range 7).map (fun k => d + k) :=
    List.mem_map.mpr ⟨_, List.mem_range.mpr hk7, rfl⟩
  have hpred : (wds.contains (weekdayName (d + ((i + 7 - (d + 6) % 7) % 7)))) = true := by
    have : weekdayName (d + ((i + 7 - (d + 6) % 7) % 7)) = w := by
      unfold weekdayName
      rw [hkey, hieq]
    rw [this]
    simpa [List.elem_eq_mem] using hwds
  unfold nextWorkday
  rcases hfind : ((List.range 7).map (fun k => d + k)).find?
      (fun x => wds.contains (weekdayName x)) with - | x
  · exact absurd hpred (by simpa using List.find?_eq_none.mp hfind _ hmem)
  · exact ⟨x, rfl⟩

lemma addAllocation_dates (sch : List DayRec) (d : ℕ) (ttl : String) (h : ℚ) :
    (addAllocation sch d ttl h).map DayRec.date
      = if d ∈ sch.map DayRec.date then sch.map DayRec.date
        else sch.map DayRec.date ++ [d] := by
  induction sch with
  | nil => simp [addAllocation]
  | cons r rs ih =>
    by_cases hr : r.date = d
    · simp [addAllocation, hr]
    · have : ¬ (d = r.date) := fun hh => hr hh.symm
      simp only [addAllocation, if_neg hr, List.map_cons, List.mem_cons, this, false_or]
      rw [ih]
      by_cases hmem : d ∈ rs.map DayRec.date <;> simp [hmem]

lemma dayHours_cons (r : DayRec) (rs : List DayRec) (x : ℕ) :
    dayHours (r :: rs) x
      = (if r.date = x then (r.allocations.map Alloc.hours).sum else 0)
        + dayHours rs x := by
  by_cases h : r.date = x <;> simp [dayHours, List.filter_cons, h]

lemma taskHours_cons (r : DayRec) (rs : List DayRec) (t : String) :
    taskHours (r :: rs) t
      = ((r.allocations.filter (fun a => a.title = t)).map Alloc.hours).sum
        + taskHours rs t := by
  simp [taskHours]

lemma addAllocation_dayHours (sch : List DayRec) (d : ℕ) (ttl : String) (h : ℚ)
    (x : ℕ) :
    dayHours (addAllocation sch d ttl h) x
      = dayHours sch x + (if x = d then h else 0) := by
  induction sch with
  | nil =>
    by_cases hx : x = d
    · subst hx
      simp [addAllocation, dayHours, List.filter_cons]
    · have hdx : ¬ (d = x) := fun hh => hx hh.symm
      simp [addAllocation, dayHours, List.filter_cons, hdx, hx]
  | cons r rs ih =>
    by_cases hr : r.date = d
    · have haa : addAllocation (r :: rs) d ttl h
          = ⟨r.date, r.allocations ++ [⟨ttl, h⟩]⟩ :: rs := by
        simp [addAllocation, hr]
      rw [haa]
      by_cases hx : r.date = x
      · have hxd : x = d := hx ▸ hr
        rw [dayHours_cons, dayHours_cons, if_pos hx, if_pos hx, if_pos hxd]
        simp only [List.map_append, List.sum_append]
        simp
        ring
      · have hxd : ¬ (x = d) := fun hh => hx (hr.trans hh.symm)
        rw [dayHours_cons, dayHours_cons, if_neg hx, if_neg hx, if_neg hxd]
        ring
    · simp only [addAllocation, if_neg hr]
      rw [dayHours_cons, dayHours_cons, ih]
      ring

lemma addAllocation_taskHours (sch : List DayRec) (d : ℕ) (ttl : String) (h : ℚ)
    (x : String) :
    taskHours (addAllocation sch d ttl h) x
      = taskHours sch x + (if ttl = x then h else 0) := by
  induction sch with
  | nil =>
    by_cases hx : ttl = x <;> simp [addAllocation, taskHours, List.filter_cons, hx]
  | cons r rs ih =>
    by_cases hr : r.date = d
    · have haa : addAllocation (r :: rs) d ttl h
          = ⟨r.date, r.allocations ++ [⟨ttl, h⟩]⟩ :: rs := by
        simp [addAllocation, hr]
      rw [haa]
      rw [taskHours_cons, taskHours_cons]
      simp only [List.filter_append, List.map_append, List.sum_append]
      by_cases hx : ttl = x
      · simp [List.filter_cons, hx]
        ring
      · simp [List.filter_cons, hx]
    · simp only [addAllocation, if_neg hr]
      rw [taskHours_cons, taskHours_cons, ih]
      ring

lemma addAllocation_mem_alloc (sch : List DayRec) (d : ℕ) (ttl : String) (h : ℚ) :
    ∀ r ∈ addAllocation sch d ttl h, ∀ a ∈ r.allocations,
      (∃ r2 ∈ sch, r2.date = r.date ∧ a ∈ r2.allocations)
        ∨ (a = ⟨ttl, h⟩ ∧ r.date = d) := by
  induction sch with
  | nil =>
    intro r hr a ha
    simp only [addAllocation, List.mem_singleton] at hr
    rw [hr] at ha
    simp only [List.mem_singleton] at ha
    exact Or.inr ⟨ha, by rw [hr]⟩
  | cons r0 rs ih =>
    intro r hr a ha
    by_cases h0 : r0.date = d
    · have haa : addAllocation (r0 :: rs) d ttl h
          = ⟨r0.date, r0.allocations ++ [⟨ttl, h⟩]⟩ :: rs := by
        simp [addAllocation, h0]
      rw [haa, List.mem_cons] at hr
      rcases hr with hr1 | hr
      · rw [hr1] at ha
        simp only [List.mem_append, List.mem_singleton] at ha
        rcases ha with ha | ha
        · exact Or.inl ⟨r0, List.mem_cons_self _ _, by rw [hr1], ha⟩
        · exact Or.inr ⟨ha, by rw [hr1]; exact h0⟩
      · exact Or.inl ⟨r, List.mem_cons_of_mem _ hr, rfl, ha⟩
    · simp only [addAllocation, if_neg h0, List.mem_cons] at hr
      rcases hr with hr1 | hr
      · rw [hr1] at ha
        exact Or.inl ⟨r0, List.mem_cons_self _ _, by rw [hr1], ha⟩
      · rcases ih r hr a ha with ⟨r2, hr2, hd2, ha2⟩ | ha2
        · exact Or.inl ⟨r2, List.mem_cons_of_mem _ hr2, hd2, ha2⟩
        · exact Or.inr ha2

lemma addAllocation_date_mem (sch : List DayRec) (d : ℕ) (ttl : String) (h : ℚ) :
    ∀ r ∈ addAllocation sch d ttl h, r.date ∈ sch.map DayRec.date ∨ r.date = d := by
  intro r hr
  have : r.date ∈ (addAllocation sch d ttl h).map DayRec.date :=
    List.mem_map_of_mem DayRec.date hr
  rw [addAllocation_dates] at this
  by_cases hmem : d ∈ sch.map DayRec.date
  · rw [if_pos hmem] at this
    exact Or.inl this
  · rw [if_neg hmem] at this
    rcases List.mem_append.mp this with h1 | h1
    · exact Or.inl h1
    · exact Or.inr (by simpa using h1)

lemma lastAllocDay_mem (sch : List DayRec) (t : String) (fd : ℕ)
    (h : lastAllocDay sch t = some fd) :
    ∃ r ∈ sch, r.date = fd ∧ r.allocations.any (fun a => a.title = t) := by
  unfold lastAllocDay at h
  cases hf : sch.reverse.find? (fun r => r.allocations.any (fun a => a.title = t)) with
  | none => rw [hf] at h; cases h
  | some r =>
    rw [hf] at h
    have hmem := List.mem_of_find?_eq_some hf
    have hpred := List.find?_some hf
    rw [List.mem_reverse] at hmem
    exact ⟨r, hmem, by simpa using h, hpred⟩

lemma lastAllocDay_none (sch : List DayRec) (t : String)
    (h : lastAllocDay sch t = none) :
    ∀ r ∈ sch, ∀ a ∈ r.allocations, a.title ≠ t := by
  unfold lastAllocDay at h
  cases hf : sch.reverse.find? (fun r => r.allocations.any (fun a => a.title = t)) with
  | some r => rw [hf] at h; cases h
  | none =>
    intro r hr a ha he
    have h2 := List.find?_eq_none.mp hf r (List.mem_reverse.mpr hr)
    apply h2
    simp only [List.any_eq_true]
    exact ⟨a, ha, by simp [he]⟩

lemma taskHours_eq_zero (sch : List DayRec) (t : String)
    (h : ∀ r ∈ sch, ∀ a ∈ r.allocations, a.title ≠ t) :
    taskHours sch t = 0 := by
  induction sch with
  | nil => simp [taskHours]
  | cons r rs ih =>
    rw [taskHours_cons]
    have h1 : r.allocations.filter (fun a => a.title = t) = [] := by
      rw [List.filter_eq_nil_iff]
      intro a ha
      simpa using h r (List.mem_cons_self _ _) a ha
    rw [h1]
    simp only [List.map_nil, List.sum_nil, zero_add]
    exact ih (fun r2 hr2 => h r2 (List.mem_cons_of_mem _ hr2))

lemma taskHours_pos_mem (sch : List DayRec) (t : String)
    (h : taskHours sch t ≠ 0) :
    ∃ r ∈ sch, ∃ a ∈ r.allocations, a.title = t := by
  by_contra hc
  push_neg at hc
  exact h (taskHours_eq_zero sch t hc)

lemma lastAllocDay_isSome_of_mem (sch : List DayRec) (t : String)
    (h : ∃ r ∈ sch, ∃ a ∈ r.allocations, a.title = t) :
    (lastAllocDay sch t).isSome := by
  cases hl : lastAllocDay sch t with
  | some fd => rfl
  | none =>
    obtain ⟨r, hr, a, ha, hat⟩ := h
    exact absurd hat (lastAllocDay_none sch t hl r hr a ha)

lemma lastAllocDay_addAllocation_other (sch : List DayRec) (d : ℕ) (ttl : String)
    (h : ℚ) (t : String) (hne : t ≠ ttl) :
    lastAllocDay (addAllocation sch d ttl h) t = lastAllocDay sch t := by
  induction sch with
  | nil =>
    simp only [addAllocation, lastAllocDay, List.reverse_singleton, List.reverse_nil]
    rw [List.find?_cons_of_neg _ (by simp [Ne.symm hne]), List.find?_nil]
  | cons r rs ih =>
    by_cases hr : r.date = d
    · have haa : addAllocation (r :: rs) d ttl h
          = ⟨r.date, r.allocations ++ [⟨ttl, h⟩]⟩ :: rs := by
        simp [addAllocation, hr]
      rw [haa]
      simp only [lastAllocDay, List.reverse_cons]
      rw [List.find?_append, List.find?_append]
      by_cases hp : r.allocations.any (fun a => a.title = t)
      · cases hfr : rs.reverse.find? (fun r => r.allocations.any (fun a => a.title = t)) with
        | some r1 => simp [hfr]
        | none =>
          rw [List.find?_cons_of_pos _ (by
              simp only [List.any_append]
              simp only [Bool.or_eq_true]
              exact Or.inl (by simpa using hp)),
            List.find?_cons_of_pos _ (by simpa using hp)]
          simp [hfr]
      · rw [List.find?_cons_of_neg _ (by
            simp only [List.any_append]
            simp only [Bool.or_eq_true, not_or]
            constructor
            · simpa using hp
            · simp [Ne.symm hne]),
          List.find?_cons_of_neg _ (by simpa using hp)]
    · have haa : addAllocation (r :: rs) d ttl h = r :: addAllocation rs d ttl h := by
        simp [addAllocation, hr]
      rw [haa]
      simp only [lastAllocDay, List.reverse_cons]
      rw [List.find?_append, List.find?_append]
      simp only [lastAllocDay] at ih
      cases hfr : (addAllocation rs d ttl h).reverse.find?
          (fun r => r.allocations.any (fun a => a.title = t)) with
      | some r1 =>
        rw [hfr] at ih
        cases hfr2 : rs.reverse.find?
            (fun r => r.allocations.any (fun a => a.title = t)) with
        | some r2 =>
          rw [hfr2] at ih
          simp only [Option.map_some'] at ih
          simp [Option.or, ih]
        | none =>
          rw [hfr2] at ih
          simp at ih
      | none =>
        rw [hfr] at ih
        cases hfr2 : rs.reverse.find?
            (fun r => r.allocations.any (fun a => a.title = t)) with
        | some r2 =>
          rw [hfr2] at ih
          simp at ih
        | none =>
          rfl

lemma dayHours_eq_zero_of_lt (sch : List DayRec) (x : ℕ)
    (h : ∀ r ∈ sch, r.date < x) : dayHours sch x = 0 := by
  induction sch with
  | nil => simp [dayHours]
  | cons r rs ih =>
    rw [dayHours_cons, if_neg (by
      exact fun hh => absurd hh (ne_of_lt (h r (List.mem_cons_self _ _)))), ih]
    · ring
    · exact fun r2 hr2 => h r2 (List.mem_cons_of_mem _ hr2)

/-! ### Allocator invariants -/

/-- Invariant of the allocation walk between tasks.  `processed` is the
prefix of the sequenced order already handled. -/
structure AInv (tm : List Task) (wds : List String) (hpd : ℚ)
    (processed : List String) (st : AState) : Prop where
  dsort : (st.schedule.map DayRec.date).Pairwise (· < ·)
  dle : ∀ r ∈ st.schedule, r.date ≤ st.currentDay
  fnn : 0 ≤ st.freeHoursToday
  fcur : dayHours st.schedule st.currentDay + st.freeHoursToday = hpd
  dmax : ∀ x, x ≠ st.currentDay → dayHours st.schedule x ≤ hpd
  wd : ∀ r ∈ st.schedule, weekdayName r.date ∈ wds
  wdcur : weekdayName st.currentDay ∈ wds
  apos : ∀ r ∈ st.schedule, ∀ a ∈ r.allocations, 0 < a.hours
  atitles : ∀ r ∈ st.schedule, ∀ a ∈ r.allocations, a.title ∈ processed
  tsum : ∀ x ∈ processed, taskHours st.schedule x = estOf tm x
  fkeys : st.finishedAt.map Prod.fst = processed
  fval : ∀ x fd, alGet st.finishedAt x = some fd →
    lastAllocDay st.schedule x = some fd ∧ fd ≤ st.currentDay
  dgate : ∀ x ∈ processed, ∀ d2 ∈ depsOf tm x, ∀ fd,
    alGet st.finishedAt d2 = some fd →
    ∀ r ∈ st.schedule, ∀ a ∈ r.allocations, a.title = x → fd ≤ r.date

/-- Invariant inside the source's per-task `while (rem > 0)` loop.
`c0` is the simulation day at loop entry, `rem` the unallocated hours. -/
structure LInv (tm : List Task) (wds : List String) (hpd : ℚ)
    (processed : List String) (t : Task) (c0 : ℕ) (rem : ℚ) (st : AState) : Prop where
  dsort : (st.schedule.map DayRec.date).Pairwise (· < ·)
  dle : ∀ r ∈ st.schedule, r.date ≤ st.currentDay
  fnn : 0 ≤ st.freeHoursToday
  fcur : dayHours st.schedule st.currentDay + st.freeHoursToday = hpd
  dmax : ∀ x, x ≠ st.currentDay → dayHours st.schedule x ≤ hpd
  wd : ∀ r ∈ st.schedule, weekdayName r.date ∈ wds
  wdcur : weekdayName st.currentDay ∈ wds
  apos : ∀ r ∈ st.schedule, ∀ a ∈ r.allocations, 0 < a.hours
  atitles : ∀ r ∈ st.schedule, ∀ a ∈ r.allocations,
    a.title ∈ processed ∨ a.title = t.title
  tsum : ∀ x ∈ processed, taskHours st.schedule x = estOf tm x
  tcur : taskHours st.schedule t.title = t.estimatedHours - rem
  fkeys : st.finishedAt.map Prod.fst = processed
  fval : ∀ x fd, alGet st.finishedAt x = some fd →
    lastAllocDay st.schedule x = some fd ∧ fd ≤ st.currentDay
  dgate : ∀ x ∈ processed, ∀ d2 ∈ depsOf tm x, ∀ fd,
    alGet st.finishedAt d2 = some fd →
    ∀ r ∈ st.schedule, ∀ a ∈ r.allocations, a.title = x → fd ≤ r.date
  tat : ∀ r ∈ st.schedule, ∀ a ∈ r.allocations, a.title = t.title → c0 ≤ r.date
  cmon : c0 ≤ st.currentDay

lemma LInv_warn (tm : List Task) (wds : List String) (hpd : ℚ)
    (processed : List String) (t : Task) (c0 : ℕ) (rem : ℚ) (st : AState)
    (w : List SWarning) (inv : LInv tm wds hpd processed t c0 rem st) :
    LInv tm wds hpd processed t c0 rem { st with warnings := w } :=
  ⟨inv.dsort, inv.dle, inv.fnn, inv.fcur, inv.dmax, inv.wd, inv.wdcur, inv.apos,
   inv.atitles, inv.tsum, inv.tcur, inv.fkeys, inv.fval, inv.dgate, inv.tat, inv.cmon⟩

lemma LInv_advance (tm : List Task) (wds : List String) (hpd : ℚ)
    (processed : List String) (t : Task) (c0 : ℕ) (rem : ℚ) (st st2 : AState)
    (hhpd : 0 ≤ hpd) (inv : LInv tm wds hpd processed t c0 rem st)
    (hadv : advanceToNextWorkday wds hpd st = some st2) :
    LInv tm wds hpd processed t c0 rem st2 ∧ st.currentDay < st2.currentDay ∧
      st.finishedAt = st2.finishedAt ∧ st.schedule = st2.schedule := by
  unfold advanceToNextWorkday at hadv
  rw [Option.map_eq_some'] at hadv
  obtain ⟨nd, hnd, hst2⟩ := hadv
  have hge := nextWorkday_ge _ _ _ hnd
  have hwd := nextWorkday_workday _ _ _ hnd
  subst hst2
  have hlt : st.currentDay < nd := by omega
  refine ⟨⟨inv.dsort, ?_, hhpd, ?_, ?_, inv.wd, hwd, inv.apos, inv.atitles,
    inv.tsum, inv.tcur, inv.fkeys, ?_, inv.dgate, inv.tat, ?_⟩, hlt, rfl, rfl⟩
  · intro r hr
    have := inv.dle r hr
    simp only
    omega
  · simp only
    rw [dayHours_eq_zero_of_lt]
    · ring
    · intro r hr
      have := inv.dle r hr
      omega
  · intro x hx
    simp only at hx ⊢
    by_cases hc : x = st.currentDay
    · subst hc
      have h1 := inv.fcur
      have h2 := inv.fnn
      linarith
    · exact inv.dmax x hc
  · intro x fd hx
    obtain ⟨h1, h2⟩ := inv.fval x fd hx
    exact ⟨h1, by simp only; omega⟩
  · simp only
    have := inv.cmon
    omega

lemma LInv_alloc (tm : List Task) (wds : List String) (hpd : ℚ)
    (processed : List String) (t : Task) (c0 : ℕ) (rem : ℚ) (st : AState)
    (hnp : t.title ∉ processed) (hrem : 0 < rem)
    (inv : LInv tm wds hpd processed t c0 rem st)
    (hfree : ¬ st.freeHoursToday ≤ 0) :
    LInv tm wds hpd processed t c0 (rem - min st.freeHoursToday rem)
      { st with
        schedule := addAllocation st.schedule st.currentDay t.title
          (min st.freeHoursToday rem),
        freeHoursToday := st.freeHoursToday - min st.freeHoursToday rem } := by
  push_neg at hfree
  have hapos : 0 < min st.freeHoursToday rem := lt_min hfree hrem
  have hamin : min st.freeHoursToday rem ≤ st.freeHoursToday := min_le_left _ _
  have haminr : min st.freeHoursToday rem ≤ rem := min_le_right _ _
  refine ⟨?_, ?_, ?_, ?_, ?_, ?_, inv.wdcur, ?_, ?_, ?_, ?_, inv.fkeys, ?_, ?_, ?_,
    inv.cmon⟩
  · -- dsort
    simp only
    rw [addAllocation_dates]
    by_cases hmem : st.currentDay ∈ st.schedule.map DayRec.date
    · rw [if_pos hmem]
      exact inv.dsort
    · rw [if_neg hmem]
      rw [List.pairwise_append]
      refine ⟨inv.dsort, List.pairwise_singleton _ _, ?_⟩
      intro y hy z hz
      have hzc : z = st.currentDay := by simpa using hz
      subst hzc
      obtain ⟨r, hr, hrd⟩ := List.mem_map.mp hy
      have := inv.dle r hr
      have hne : y ≠ st.currentDay := fun he => hmem (he ▸ hy)
      omega
  · -- dle
    intro r hr
    simp only at hr ⊢
    rcases addAllocation_date_mem _ _ _ _ r hr with h1 | h1
    · obtain ⟨r2, hr2, hrd⟩ := List.mem_map.mp h1
      have := inv.dle r2 hr2
      omega
    · omega
  · -- fnn
    simp only
    linarith
  · -- fcur
    simp only
    rw [addAllocation_dayHours]
    rw [if_pos rfl]
    have := inv.fcur
    linarith
  · -- dmax
    intro x hx
    simp only at hx ⊢
    rw [addAllocation_dayHours, if_neg hx]
    have := inv.dmax x hx
    linarith
  · -- wd
    intro r hr
    simp only at hr
    rcases addAllocation_date_mem _ _ _ _ r hr with h1 | h1
    · obtain ⟨r2, hr2, hrd⟩ := List.mem_map.mp h1
      rw [← hrd]
      exact inv.wd r2 hr2
    · rw [h1]
      exact inv.wdcur
  · -- apos
    intro r hr a ha
    simp only at hr
    rcases addAllocation_mem_alloc _ _ _ _ r hr a ha with ⟨r2, hr2, -, ha2⟩ | ⟨ha2, -⟩
    · exact inv.apos r2 hr2 a ha2
    · rw [ha2]
      exact hapos
  · -- atitles
    intro r hr a ha
    simp only at hr
    rcases addAllocation_mem_alloc _ _ _ _ r hr a ha with ⟨r2, hr2, -, ha2⟩ | ⟨ha2, -⟩
    · exact inv.atitles r2 hr2 a ha2
    · rw [ha2]
      exact Or.inr rfl
  · -- tsum
    intro x hx
    simp only
    have hne : ¬ (t.title = x) := by
      intro he
      rw [he] at hnp
      exact hnp hx
    rw [addAllocation_taskHours, if_neg hne]
    rw [inv.tsum x hx]
    ring
  · -- tcur
    simp only
    rw [addAllocation_taskHours, if_pos rfl, inv.tcur]
    ring
  · -- fval
    intro x fd hx
    have hxk : x ∈ st.finishedAt.map Prod.fst :=
      (alGet_isSome_iff _ _).mp (by rw [hx]; rfl)
    rw [inv.fkeys] at hxk
    have hxne : x ≠ t.title := by
      intro he
      rw [he] at hxk
      exact hnp hxk
    obtain ⟨h1, h2⟩ := inv.fval x fd hx
    simp only
    rw [lastAllocDay_addAllocation_other _ _ _ _ _ hxne]
    exact ⟨h1, h2⟩
  · -- dgate
    intro x hx d2 hd2 fd hfd r hr a ha hat
    simp only at hr
    rcases addAllocation_mem_alloc _ _ _ _ r hr a ha with ⟨r2, hr2, hdd, ha2⟩ | ⟨ha2, hdd⟩
    · rw [← hdd]
      exact inv.dgate x hx d2 hd2 fd hfd r2 hr2 a ha2 hat
    · exfalso
      apply hnp
      have : a.title = t.title := by rw [ha2]
      rw [← hat, this] at hx
      exact hx
  · -- tat
    intro r hr a ha hat
    simp only at hr ⊢
    rcases addAllocation_mem_alloc _ _ _ _ r hr a ha with ⟨r2, hr2, hdd, ha2⟩ | ⟨ha2, hdd⟩
    · rw [← hdd]
      exact inv.tat r2 hr2 a ha2 hat
    · rw [hdd]
      exact inv.cmon

/-- The per-task allocation loop preserves the loop invariant and, on
normal exit, has allocated the task's hours exactly. -/
lemma allocLoop_inv (tm : List Task) (wds : List String) (hpd : ℚ)
    (processed : List String) (t : Task) (c0 : ℕ)
    (hhpd : 0 ≤ hpd) (hnp : t.title ∉ processed) :
    ∀ (fuel : ℕ) (rem : ℚ) (st st' : AState), 0 < rem →
      LInv tm wds hpd processed t c0 rem st →
      allocLoop wds hpd t fuel rem st = some st' →
      LInv tm wds hpd processed t c0 0 st' ∧ st.currentDay ≤ st'.currentDay ∧
        st.finishedAt = st'.finishedAt := by
  intro fuel
  induction fuel with
  | zero =>
    intro rem st st' hrem inv h
    cases h
  | succ fuel ih =>
    intro rem st st' hrem inv h
    simp only [allocLoop] at h
    rw [if_neg (not_le.mpr hrem)] at h
    obtain ⟨W, hWdef⟩ : ∃ W, W = (if t.dueDate < st.currentDay then
        { st with warnings := st.warnings ++ [⟨t.title, t.dueDate, st.currentDay⟩] }
      else st) := ⟨_, rfl⟩
    rw [← hWdef] at h
    have hWinv : LInv tm wds hpd processed t c0 rem W := by
      rw [hWdef]
      by_cases hdue : t.dueDate < st.currentDay
      · rw [if_pos hdue]
        exact LInv_warn _ _ _ _ _ _ _ _ _ inv
      · rw [if_neg hdue]
        exact inv
    have hWcur : W.currentDay = st.currentDay := by
      rw [hWdef]
      by_cases hdue : t.dueDate < st.currentDay
      · rw [if_pos hdue]
      · rw [if_neg hdue]
    have hWfin : W.finishedAt = st.finishedAt := by
      rw [hWdef]
      by_cases hdue : t.dueDate < st.currentDay
      · rw [if_pos hdue]
      · rw [if_neg hdue]
    by_cases hfree : W.freeHoursToday ≤ 0
    · rw [if_pos hfree] at h
      cases hadv : advanceToNextWorkday wds hpd W with
      | none => rw [hadv] at h; cases h
      | some st2 =>
        rw [hadv] at h
        obtain ⟨inv2, hlt2, hfin2, -⟩ :=
          LInv_advance tm wds hpd processed t c0 rem W st2 hhpd hWinv hadv
        obtain ⟨inv3, hle3, hfin3⟩ := ih rem st2 st' hrem inv2 h
        refine ⟨inv3, by omega, ?_⟩
        rw [← hWfin, hfin2, hfin3]
    · rw [if_neg hfree] at h
      obtain ⟨B, hBdef⟩ : ∃ B, B = { W with
          schedule := addAllocation W.schedule W.currentDay t.title
            (min W.freeHoursToday rem),
          freeHoursToday := W.freeHoursToday - min W.freeHoursToday rem } := ⟨_, rfl⟩
      rw [← hBdef] at h
      have hBinv : LInv tm wds hpd processed t c0 (rem - min W.freeHoursToday rem) B := by
        rw [hBdef]
        exact LInv_alloc tm wds hpd processed t c0 rem W hnp hrem hWinv hfree
      have hBcur : B.currentDay = W.currentDay := by rw [hBdef]
      have hBfin : B.finishedAt = W.finishedAt := by rw [hBdef]
      by_cases hrem2 : 0 < rem - min W.freeHoursToday rem
      · rw [if_pos hrem2] at h
        cases hadv : advanceToNextWorkday wds hpd B with
        | none => rw [hadv] at h; cases h
        | some st3 =>
          rw [hadv] at h
          obtain ⟨inv3, hlt3, hfin3, -⟩ :=
            LInv_advance tm wds hpd processed t c0 _ B st3 hhpd hBinv hadv
          obtain ⟨inv4, hle4, hfin4⟩ := ih _ st3 st' hrem2 inv3 h
          refine ⟨inv4, by omega, ?_⟩
          rw [← hWfin, ← hBfin, hfin3, hfin4]
      · rw [if_neg hrem2] at h
        have hst' := Option.some.inj h
        have hzero : rem - min W.freeHoursToday rem = 0 := by
          have := min_le_right W.freeHoursToday rem
          have h2 := not_lt.mp hrem2
          linarith
        rw [hzero] at hBinv
        refine ⟨hst' ▸ hBinv, ?_, ?_⟩
        · rw [← hst', hBcur, hWcur]
        · rw [← hst', hBfin, hWfin]

/-- Moving the simulation day strictly forward to a workday and resetting
the free hours preserves the between-task invariant. -/
lemma AInv_setday (tm : List Task) (wds : List String) (hpd : ℚ)
    (processed : List String) (st : AState) (nd : ℕ)
    (hhpd : 0 ≤ hpd) (inv : AInv tm wds hpd processed st)
    (hlt : st.currentDay < nd) (hwd : weekdayName nd ∈ wds) :
    AInv tm wds hpd processed { st with currentDay := nd, freeHoursToday := hpd } := by
  refine ⟨inv.dsort, ?_, hhpd, ?_, ?_, inv.wd, hwd, inv.apos, inv.atitles,
    inv.tsum, inv.fkeys, ?_, inv.dgate⟩
  · intro r hr
    have := inv.dle r hr
    simp only
    omega
  · simp only
    rw [dayHours_eq_zero_of_lt]
    · ring
    · intro r hr
      have := inv.dle r hr
      omega
  · intro x hx
    simp only at hx ⊢
    by_cases hc : x = st.currentDay
    · subst hc
      have h1 := inv.fcur
      have h2 := inv.fnn
      linarith
    · exact inv.dmax x hc
  · intro x fd hx
    obtain ⟨h1, h2⟩ := inv.fval x fd hx
    exact ⟨h1, by simp only; omega⟩

/-- Entering a task's allocation loop: the between-task invariant yields
the loop invariant with the full estimate outstanding. -/
lemma AInv_to_LInv (tm : List Task) (wds : List String) (hpd : ℚ)
    (processed : List String) (st : AState) (t : Task)
    (hnp : t.title ∉ processed) (inv : AInv tm wds hpd processed st) :
    LInv tm wds hpd processed t st.currentDay t.estimatedHours st := by
  have hzero : taskHours st.schedule t.title = 0 := by
    apply taskHours_eq_zero
    intro r hr a ha he
    exact hnp (he ▸ inv.atitles r hr a ha)
  refine ⟨inv.dsort, inv.dle, inv.fnn, inv.fcur, inv.dmax, inv.wd, inv.wdcur,
    inv.apos, ?_, inv.tsum, ?_, inv.fkeys, inv.fval, inv.dgate, ?_, le_refl _⟩
  · intro r hr a ha
    exact Or.inl (inv.atitles r hr a ha)
  · rw [hzero]
    ring
  · intro r hr a ha hat
    exact absurd (hat ▸ inv.atitles r hr a ha) hnp

/-- If the loop completes with hours still to place, the day capacity must
have been positive at entry or the reset value `hpd` is positive. -/
lemma allocLoop_some_hpd (wds : List String) (hpd : ℚ) (t : Task) :
    ∀ (fuel : ℕ) (rem : ℚ) (st st' : AState),
      allocLoop wds hpd t fuel rem st = some st' → 0 < rem →
      0 < st.freeHoursToday ∨ 0 < hpd := by
  intro fuel
  induction fuel with
  | zero => intro rem st st' h hrem; cases h
  | succ fuel ih =>
    intro rem st st' h hrem
    simp only [allocLoop] at h
    rw [if_neg (not_le.mpr hrem)] at h
    obtain ⟨W, hWdef⟩ : ∃ W, W = (if t.dueDate < st.currentDay then
        { st with warnings := st.warnings ++ [⟨t.title, t.dueDate, st.currentDay⟩] }
      else st) := ⟨_, rfl⟩
    rw [← hWdef] at h
    have hWfree : W.freeHoursToday = st.freeHoursToday := by
      rw [hWdef]
      by_cases hdue : t.dueDate < st.currentDay
      · rw [if_pos hdue]
      · rw [if_neg hdue]
    by_cases hfree : W.freeHoursToday ≤ 0
    · rw [if_pos hfree] at h
      cases hadv : advanceToNextWorkday wds hpd W with
      | none => rw [hadv] at h; cases h
      | some st2 =>
        rw [hadv] at h
        have hst2free : st2.freeHoursToday = hpd := by
          unfold advanceToNextWorkday at hadv
          rw [Option.map_eq_some'] at hadv
          obtain ⟨nd, -, hst2⟩ := hadv
          rw [← hst2]
        rcases ih rem st2 st' h hrem with h1 | h1
        · right; rw [← hst2free]; exact h1
        · right; exact h1
    · left
      rw [← hWfree]
      exact lt_of_not_le hfree

/-- Every right element of a `Forall₂` has a related left element. -/
lemma forall2_mem_right {R : RawTask → Task → Prop} :
    ∀ {l₁ : List RawTask} {l₂ : List Task}, List.Forall₂ R l₁ l₂ →
      ∀ b ∈ l₂, ∃ a ∈ l₁, R a b := by
  intro l₁ l₂ h
  induction h with
  | nil => intro b hb; cases hb
  | cons hr hrest ih =>
    intro b hb
    rcases List.mem_cons.mp hb with rfl | hb2
    · exact ⟨_, List.mem_cons_self _ _, hr⟩
    · obtain ⟨a, ha, har⟩ := ih b hb2
      exact ⟨a, List.mem_cons_of_mem _ ha, har⟩

/-- Every left element of a `Forall₂` has a related right element. -/
lemma forall2_mem_left {R : RawTask → Task → Prop} :
    ∀ {l₁ : List RawTask} {l₂ : List Task}, List.Forall₂ R l₁ l₂ →
      ∀ a ∈ l₁, ∃ b ∈ l₂, R a b := by
  intro l₁ l₂ h
  induction h with
  | nil => intro a ha; cases ha
  | cons hr hrest ih =>
    intro a ha
    rcases List.mem_cons.mp ha with rfl | ha2
    · exact ⟨_, List.mem_cons_self _ _, hr⟩
    · obtain ⟨b, hb, hbr⟩ := ih a ha2
      exact ⟨b, List.mem_cons_of_mem _ hb, hbr⟩

lemma processTaskRest_spec (tm : List Task) (wds : List String) (hpd : ℚ)
    (processed : List String) (t : Task) (st1 : AState)
    (hhpd : 0 ≤ hpd) (hest : 0 < t.estimatedHours)
    (ht : findTask tm t.title = some t)
    (hnp : t.title ∉ processed)
    (hnodep : ∀ x ∈ processed, t.title ∉ depsOf tm x)
    (hnoselft : ∀ d ∈ t.dependencies, d ≠ t.title)
    (inv1 : AInv tm wds hpd processed st1) :
    (∀ e, processTaskRest tm wds hpd t st1 ≠ .throws e) ∧
    (∀ st', processTaskRest tm wds hpd t st1 = .ok st' →
      AInv tm wds hpd (processed ++ [t.title]) st' ∧
        st1.currentDay ≤ st'.currentDay) := by
  unfold processTaskRest
  cases hal : allocLoop wds hpd t (allocFuel t.estimatedHours hpd)
      t.estimatedHours st1 with
  | none =>
    constructor
    · intro e h
      cases h
    · intro st' h
      cases h
  | some st2 =>
    have linv1 := AInv_to_LInv tm wds hpd processed st1 t hnp inv1
    obtain ⟨linv2, hcur2, hfin2⟩ := allocLoop_inv tm wds hpd processed t
      st1.currentDay hhpd hnp _ _ st1 st2 hest linv1 hal
    have htH : taskHours st2.schedule t.title = t.estimatedHours := by
      have := linv2.tcur
      simpa using this
    have hmem : ∃ r ∈ st2.schedule, ∃ a ∈ r.allocations, a.title = t.title :=
      taskHours_pos_mem _ _ (by rw [htH]; exact ne_of_gt hest)
    dsimp only
    cases hlast : lastAllocDay st2.schedule t.title with
    | none =>
      exact absurd (lastAllocDay_isSome_of_mem _ _ hmem) (by rw [hlast]; simp)
    | some fd =>
      obtain ⟨rfd, hrfd, hrfddate, -⟩ := lastAllocDay_mem _ _ _ hlast
      have hfdle : fd ≤ st2.currentDay := hrfddate ▸ linv2.dle rfd hrfd
      dsimp only
      constructor
      · intro e h
        cases h
      · intro st' h
        have hst' : { st2 with finishedAt := alSet st2.finishedAt t.title fd } = st' :=
          Outcome.ok.inj h
        rw [← hst']
        constructor
        · refine ⟨linv2.dsort, linv2.dle, linv2.fnn, linv2.fcur, linv2.dmax,
            linv2.wd, linv2.wdcur, linv2.apos, ?_, ?_, ?_, ?_, ?_⟩
          · -- atitles
            intro r hr a ha
            rcases linv2.atitles r hr a ha with h1 | h1
            · exact List.mem_append_left _ h1
            · exact h1 ▸ List.mem_append_right _ (List.mem_singleton_self _)
          · -- tsum
            intro x hx
            rcases List.mem_append.mp hx with h1 | h1
            · exact linv2.tsum x h1
            · have hx2 : x = t.title := by simpa using h1
              subst hx2
              rw [htH]
              simp [estOf, ht]
          · -- fkeys
            simp only
            rw [alSet_keys_not_mem _ _ _ (by rw [linv2.fkeys]; exact hnp), linv2.fkeys]
          · -- fval
            intro x fd2 hx
            simp only at hx ⊢
            by_cases hxt : x = t.title
            · subst hxt
              rw [alGet_alSet_self] at hx
              have hfd2 : fd2 = fd := (Option.some.inj hx).symm
              subst hfd2
              exact ⟨hlast, hfdle⟩
            · rw [alGet_alSet_other _ _ _ _ hxt] at hx
              exact linv2.fval x fd2 hx
          · -- dgate
            intro x hx d2 hd2 fd2 hfd2 r hr a ha hat
            simp only at hfd2 hr
            rcases List.mem_append.mp hx with h1 | h1
            · have hd2t : d2 ≠ t.title := by
                intro he
                exact hnodep x h1 (he ▸ hd2)
              rw [alGet_alSet_other _ _ _ _ hd2t] at hfd2
              exact linv2.dgate x h1 d2 hd2 fd2 hfd2 r hr a ha hat
            · have hx2 : x = t.title := by simpa using h1
              subst hx2
              have hdeps : depsOf tm t.title = t.dependencies := by
                simp [depsOf, ht]
              rw [hdeps] at hd2
              have hd2t : d2 ≠ t.title := hnoselft d2 hd2
              rw [alGet_alSet_other _ _ _ _ hd2t] at hfd2
              rw [← hfin2] at hfd2
              have hfd2le : fd2 ≤ st1.currentDay := (inv1.fval d2 fd2 hfd2).2
              have hc0 : st1.currentDay ≤ r.date := linv2.tat r hr a ha hat
              omega
        · dsimp only
          exact hcur2

lemma processTask_spec (tm : List Task) (wds : List String) (hpd : ℚ) (today : ℕ)
    (processed : List String) (title : String) (st : AState)
    (hhpd : 0 ≤ hpd)
    (hestpos : ∀ u ∈ tm, 0 < u.estimatedHours)
    (hnoself : ∀ u ∈ tm, ∀ d ∈ u.dependencies, d ≠ u.title)
    (htitle : title ∈ titles tm) (hnp : title ∉ processed)
    (hnodep : ∀ x ∈ processed, title ∉ depsOf tm x)
    (inv : AInv tm wds hpd processed st) :
    (∀ e, processTask tm wds hpd today st title ≠ .throws e) ∧
    (∀ st', processTask tm wds hpd today st title = .ok st' →
      AInv tm wds hpd (processed ++ [title]) st' ∧
        st.currentDay ≤ st'.currentDay) := by
  obtain ⟨t, ht⟩ := Option.isSome_iff_exists.mp ((findTask_isSome_iff tm title).mpr htitle)
  obtain ⟨htm, hteq⟩ := findTask_eq_some tm title t ht
  subst hteq
  by_cases hgate : st.currentDay < earliestReadyOf today st.finishedAt t.dependencies
  · cases hnw : nextWorkday (earliestReadyOf today st.finishedAt t.dependencies) wds with
    | none =>
      have heq : processTask tm wds hpd today st t.title = .diverge := by
        unfold processTask
        rw [ht]
        dsimp only
        rw [if_pos hgate, hnw]
        rfl
      rw [heq]
      constructor
      · intro e h; cases h
      · intro st' h; cases h
    | some nd =>
      have hinv1 : AInv tm wds hpd processed
          { st with currentDay := nd, freeHoursToday := hpd } := by
        apply AInv_setday tm wds hpd processed st nd hhpd inv
        · have := nextWorkday_ge _ _ _ hnw
          omega
        · exact nextWorkday_workday _ _ _ hnw
      have heq : processTask tm wds hpd today st t.title
          = processTaskRest tm wds hpd t
              { st with currentDay := nd, freeHoursToday := hpd } := by
        unfold processTask
        rw [ht]
        dsimp only
        rw [if_pos hgate, hnw]
        rfl
      rw [heq]
      obtain ⟨h1, h2⟩ := processTaskRest_spec tm wds hpd processed t _ hhpd
        (hestpos t htm) ht hnp hnodep (hnoself t htm) hinv1
      refine ⟨h1, ?_⟩
      intro st' hok
      obtain ⟨ha, hb⟩ := h2 st' hok
      refine ⟨ha, ?_⟩
      have hc : ({ st with currentDay := nd, freeHoursToday := hpd }).currentDay = nd :=
        rfl
      have hge := nextWorkday_ge _ _ _ hnw
      rw [hc] at hb
      omega
  · have heq : processTask tm wds hpd today st t.title
        = processTaskRest tm wds hpd t st := by
      unfold processTask
      rw [ht]
      dsimp only
      rw [if_neg hgate]
    rw [heq]
    exact processTaskRest_spec tm wds hpd processed t st hhpd (hestpos t htm) ht hnp
      hnodep (hnoself t htm) inv

lemma allocAll_spec (tm : List Task) (wds : List String) (hpd : ℚ) (today : ℕ)
    (hhpd : 0 ≤ hpd)
    (hestpos : ∀ u ∈ tm, 0 < u.estimatedHours)
    (hnoself : ∀ u ∈ tm, ∀ d ∈ u.dependencies, d ≠ u.title) :
    ∀ (suffix processed : List String) (st : AState),
      AInv tm wds hpd processed st →
      (∀ x ∈ suffix, x ∈ titles tm) →
      (∀ x ∈ suffix, x ∉ processed) →
      suffix.Nodup →
      (∀ x ∈ processed, ∀ y ∈ suffix, y ∉ depsOf tm x) →
      suffix.Pairwise (fun a b => b ∉ depsOf tm a) →
      (∀ e, allocAll tm wds hpd today suffix st ≠ .throws e) ∧
      (∀ st', allocAll tm wds hpd today suffix st = .ok st' →
        AInv tm wds hpd (processed ++ suffix) st') := by
  intro suffix
  induction suffix with
  | nil =>
    intro processed st inv _ _ _ _ _
    constructor
    · intro e h
      simp only [allocAll] at h
      cases h
    · intro st' h
      simp only [allocAll] at h
      have := Outcome.ok.inj h
      rw [List.append_nil, ← this]
      exact inv
  | cons x rest ih =>
    intro processed st inv hsub hdisj hnd hnodepAll hpw
    obtain ⟨hthrow, hok⟩ := processTask_spec tm wds hpd today processed x st hhpd
      hestpos hnoself (hsub x (List.mem_cons_self _ _))
      (hdisj x (List.mem_cons_self _ _))
      (fun z hz => hnodepAll z hz x (List.mem_cons_self _ _)) inv
    cases hpt : processTask tm wds hpd today st x with
    | diverge =>
      constructor
      · intro e h
        simp only [allocAll, hpt] at h
        cases h
      · intro st' h
        simp only [allocAll, hpt] at h
        cases h
    | throws e2 =>
      exact absurd hpt (hthrow e2)
    | ok st2 =>
      obtain ⟨hainv2, -⟩ := hok st2 hpt
      have hre := ih (processed ++ [x]) st2 hainv2
        (fun y hy => hsub y (List.mem_cons_of_mem _ hy))
        (fun y hy hmem => by
          rcases List.mem_append.mp hmem with h1 | h1
          · exact hdisj y (List.mem_cons_of_mem _ hy) h1
          · have hyx : y = x := by simpa using h1
            exact (List.nodup_cons.mp hnd).1 (hyx ▸ hy))
        (List.nodup_cons.mp hnd).2
        (fun z hz y hy => by
          rcases List.mem_append.mp hz with h1 | h1
          · exact hnodepAll z h1 y (List.mem_cons_of_mem _ hy)
          · have hzx : z = x := by simpa using h1
            exact hzx ▸ (List.pairwise_cons.mp hpw).1 y hy)
        (List.pairwise_cons.mp hpw).2
      constructor
      · intro e h
        simp only [allocAll, hpt] at h
        exact hre.1 e h
      · intro st' h
        simp only [allocAll, hpt] at h
        have := hre.2 st' h
        rw [List.append_assoc] at this
        simpa using this

/-- The first day of the walk has the full day's hours available, so a
completed first task forces `workHoursPerDay` to be positive. -/
lemma processTask_ok_pos (tm : List Task) (wds : List String) (hpd : ℚ) (today : ℕ)
    (st : AState) (title : String) (st' : AState)
    (hfree : st.freeHoursToday = hpd)
    (hestpos : ∀ u ∈ tm, 0 < u.estimatedHours)
    (h : processTask tm wds hpd today st title = .ok st') : 0 < hpd := by
  unfold processTask at h
  cases hft : findTask tm title with
  | none => rw [hft] at h; cases h
  | some t =>
    rw [hft] at h
    dsimp only at h
    have htm : t ∈ tm := (findTask_eq_some tm title t hft).1
    have hest := hestpos t htm
    by_cases hgate : st.currentDay < earliestReadyOf today st.finishedAt t.dependencies
    · rw [if_pos hgate] at h
      cases hnw : nextWorkday (earliestReadyOf today st.finishedAt t.dependencies) wds with
      | none => rw [hnw] at h; cases h
      | some nd =>
        rw [hnw] at h
        simp only [Option.map_some'] at h
        unfold processTaskRest at h
        cases hal : allocLoop wds hpd t (allocFuel t.estimatedHours hpd)
            t.estimatedHours { st with currentDay := nd, freeHoursToday := hpd } with
        | none => rw [hal] at h; cases h
        | some st2 =>
          rcases allocLoop_some_hpd wds hpd t _ _ _ _ hal hest with h1 | h1
          · simpa using h1
          · exact h1
    · rw [if_neg hgate] at h
      dsimp only at h
      unfold processTaskRest at h
      cases hal : allocLoop wds hpd t (allocFuel t.estimatedHours hpd)
          t.estimatedHours st with
      | none => rw [hal] at h; cases h
      | some st2 =>
        rcases allocLoop_some_hpd wds hpd t _ _ _ _ hal hest with h1 | h1
        · rw [hfree] at h1
          exact h1
        · exact h1

lemma allocAll_cons_ok (tm : List Task) (wds : List String) (hpd : ℚ) (today : ℕ)
    (x : String) (rest : List String) (st st' : AState)
    (h : allocAll tm wds hpd today (x :: rest) st = .ok st') :
    ∃ st2, processTask tm wds hpd today st x = .ok st2 := by
  simp only [allocAll] at h
  cases hpt : processTask tm wds hpd today st x with
  | diverge => rw [hpt] at h; cases h
  | throws e => rw [hpt] at h; cases h
  | ok st2 => exact ⟨st2, rfl⟩

lemma AInv_init (tm : List Task) (wds : List String) (hpd : ℚ) (d0 : ℕ)
    (hhpd : 0 ≤ hpd) (hwd : weekdayName d0 ∈ wds) :
    AInv tm wds hpd [] ⟨d0, hpd, [], [], []⟩ := by
  refine ⟨?_, ?_, hhpd, ?_, ?_, ?_, hwd, ?_, ?_, ?_, ?_, ?_, ?_⟩
  · simp
  · intro r hr; cases hr
  · simp [dayHours]
  · intro x hx
    simp [dayHours]
    exact hhpd
  · intro r hr; cases hr
  · intro r hr; cases hr
  · intro r hr; cases hr
  · intro x hx; cases hx
  · simp
  · intro x fd hx; cases hx
  · intro x hx; cases hx

/-- Full inversion of a successful `scheduleTasks` call. -/
lemma scheduleTasks_ok_big (inp : SchedInput) (today : ℕ) (out : ScheduleOutput)
    (h : scheduleTasks inp today = .ok out) :
    ∃ tm stf, buildTaskMap inp.tasks [] = .ok tm ∧
      checkDeps tm = .ok () ∧
      TMCtx tm ∧
      (∀ u ∈ tm, 0 < u.estimatedHours) ∧
      List.Forall₂ NormRel inp.tasks tm ∧
      (runSequencer tm).length = tm.length ∧
      out.recommendedOrder = runSequencer tm ∧
      out.schedule = stf.schedule ∧
      AInv tm inp.workDays inp.workHoursPerDay (runSequencer tm) stf := by
  unfold scheduleTasks at h
  by_cases hlen0 : inp.tasks.length = 0
  · rw [if_pos hlen0] at h; cases h
  rw [if_neg hlen0] at h
  cases hbuild : buildTaskMap inp.tasks [] with
  | error e => rw [hbuild] at h; cases h
  | ok tm =>
  rw [hbuild] at h
  dsimp only at h
  cases hcheck : checkDeps tm with
  | error e => rw [hcheck] at h; cases h
  | ok u =>
  cases u
  rw [hcheck] at h
  dsimp only at h
  by_cases hlen : (runSequencer tm).length ≠ tm.length
  · rw [if_pos hlen] at h; cases h
  rw [if_neg hlen] at h
  push_neg at hlen
  cases hstart : startSerial inp today with
  | none => rw [hstart] at h; cases h
  | some s0 =>
  rw [hstart] at h
  dsimp only at h
  cases hnw : nextWorkday s0 inp.workDays with
  | none => rw [hnw] at h; cases h
  | some d0 =>
  rw [hnw] at h
  dsimp only at h
  cases hall : allocAll tm inp.workDays inp.workHoursPerDay today (runSequencer tm)
      ⟨d0, inp.workHoursPerDay, [], [], []⟩ with
  | diverge => rw [hall] at h; cases h
  | throws e => rw [hall] at h; cases h
  | ok stf =>
  rw [hall] at h
  dsimp only at h
  have hout : out = ⟨runSequencer tm, stf.schedule, stf.warnings⟩ :=
    (Outcome.ok.inj h).symm
  obtain ⟨tl, htl, hfa⟩ := buildTaskMap_ok inp.tasks [] tm hbuild
  rw [List.nil_append] at htl
  subst htl
  have hfa2 : List.Forall₂ NormRel inp.tasks tm := hfa
  have hnodup : (titles tm).Nodup := buildTaskMap_ok_nodup inp.tasks [] tm hbuild (by simp)
  have hcd := (checkDeps_ok_iff tm).mp hcheck
  have hctx : TMCtx tm :=
    ⟨hnodup, fun t ht d hd => (hcd t ht d hd).1, fun t ht d hd => (hcd t ht d hd).2⟩
  have hestpos : ∀ u ∈ tm, 0 < u.estimatedHours := by
    intro u hu
    obtain ⟨r, -, hrel⟩ := forall2_mem_right hfa2 u hu
    rw [hrel.2.1]
    exact hrel.2.2.2.2.2
  -- positivity of workHoursPerDay via the first task
  have hne : runSequencer tm ≠ [] := by
    intro hnil
    have h1 : tm.length = 0 := by rw [← hlen, hnil]; rfl
    have h2 := List.Forall₂.length_eq hfa2
    omega
  obtain ⟨x, rest, hxr⟩ := List.exists_cons_of_ne_nil hne
  have hhpd : 0 < inp.workHoursPerDay := by
    rw [hxr] at hall
    obtain ⟨st2, hpt⟩ := allocAll_cons_ok _ _ _ _ _ _ _ _ hall
    exact processTask_ok_pos _ _ _ _ _ _ _ rfl hestpos hpt
  have hinv0 : AInv tm inp.workDays inp.workHoursPerDay []
      ⟨d0, inp.workHoursPerDay, [], [], []⟩ :=
    AInv_init tm inp.workDays inp.workHoursPerDay d0 (le_of_lt hhpd)
      (nextWorkday_workday _ _ _ hnw)
  obtain ⟨-, hfinal⟩ := allocAll_spec tm inp.workDays inp.workHoursPerDay today
    (le_of_lt hhpd) hestpos hctx.noself (runSequencer tm) [] _ hinv0
    (runSequencer_sub tm hctx)
    (fun y _ hy => by cases hy)
    (runSequencer_nodup tm hctx)
    (fun z hz => by cases hz)
    (runSequencer_tord tm hctx)
  have hainv := hfinal stf hall
  rw [List.nil_append] at hainv
  exact ⟨tm, stf, rfl, hcheck, hctx, hestpos, hfa2, hlen, by rw [hout],
    by rw [hout], hainv⟩


/-! ### Fueled evaluators: proof devices for concrete runs -/

/-- Fueled version of `kahnLoop`, structurally recursive so that concrete
runs reduce inside the kernel; `none` means the fuel ran out. -/
def kahnLoopF (tm : List Task) : ℕ → KState → Option (List String)
  | 0, _ => none
  | fuel + 1, st =>
    match st.available with
    | [] => some st.topo
    | cur :: rest =>
      kahnLoopF tm fuel ((adjOf tm cur).foldl (relaxNb tm) ⟨st.indeg, rest, st.topo ++ [cur]⟩)

lemma kahnLoopF_eq (tm : List Task) :
    ∀ (fuel : ℕ) (st : KState) (res : List String),
      kahnLoopF tm fuel st = some res → kahnLoop tm st = res := by
  intro fuel
  induction fuel with
  | zero => intro st res h; cases h
  | succ fuel ih =>
    intro st res h
    simp only [kahnLoopF] at h
    cases hav : st.available with
    | nil =>
      rw [hav] at h
      dsimp only at h
      rw [kahnLoop_eq_nil tm st hav]
      exact Option.some.inj h
    | cons cur rest =>
      rw [hav] at h
      dsimp only at h
      rw [kahnLoop_eq_cons tm st cur rest hav]
      exact ih _ res h

/-- Fueled version of `scheduleTasks` (see `kahnLoopF`): identical except
that the sequencer runs on fuel, so concrete runs are kernel-computable. -/
def scheduleTasksF (fuel : ℕ) (inp : SchedInput) (today : ℕ) :
    Option (Outcome ScheduleOutput) :=
  if inp.tasks.length = 0 then some (.throws "tasks must be a non-empty array")
  else
    match buildTaskMap inp.tasks [] with
    | .error e => some (.throws e)
    | .ok tm =>
      match checkDeps tm with
      | .error e => some (.throws e)
      | .ok _ =>
        match kahnLoopF tm fuel (kahnInit tm) with
        | none => none
        | some topo =>
          if topo.length ≠ tm.length then some (.throws "Cycle detected in dependencies")
          else
            match startSerial inp today with
            | none => some .diverge
            | some s0 =>
              match nextWorkday s0 inp.workDays with
              | none => some .diverge
              | some d0 =>
                match allocAll tm inp.workDays inp.workHoursPerDay today topo
                    ⟨d0, inp.workHoursPerDay, [], [], []⟩ with
                | .diverge => some .diverge
                | .throws e => some (.throws e)
                | .ok stf => some (.ok ⟨topo, stf.schedule, stf.warnings⟩)

lemma scheduleTasksF_eq (fuel : ℕ) (inp : SchedInput) (today : ℕ)
    (r : Outcome ScheduleOutput) (h : scheduleTasksF fuel inp today = some r) :
    scheduleTasks inp today = r := by
  unfold scheduleTasksF at h
  unfold scheduleTasks
  by_cases hlen0 : inp.tasks.length = 0
  · rw [if_pos hlen0] at h ⊢
    exact Option.some.inj h
  rw [if_neg hlen0] at h ⊢
  cases hbuild : buildTaskMap inp.tasks [] with
  | error e =>
    rw [hbuild] at h
    exact Option.some.inj h
  | ok tm =>
    rw [hbuild] at h
    dsimp only at h ⊢
    cases hcheck : checkDeps tm with
    | error e =>
      rw [hcheck] at h
      exact Option.some.inj h
    | ok u =>
      rw [hcheck] at h
      dsimp only at h ⊢
      cases hk : kahnLoopF tm fuel (kahnInit tm) with
      | none => rw [hk] at h; cases h
      | some topo =>
        rw [hk] at h
        dsimp only at h
        have hseq : runSequencer tm = topo := kahnLoopF_eq tm fuel (kahnInit tm) topo hk
        rw [hseq]
        by_cases hlen : topo.length ≠ tm.length
        · rw [if_pos hlen] at h ⊢
          exact Option.some.inj h
        rw [if_neg hlen] at h ⊢
        cases hstart : startSerial inp today with
        | none => rw [hstart] at h; exact Option.some.inj h
        | some s0 =>
          rw [hstart] at h
          dsimp only at h ⊢
          cases hnw : nextWorkday s0 inp.workDays with
          | none => rw [hnw] at h; exact Option.some.inj h
          | some d0 =>
            rw [hnw] at h
            dsimp only at h ⊢
            cases hall : allocAll tm inp.workDays inp.workHoursPerDay today topo
                ⟨d0, inp.workHoursPerDay, [], [], []⟩ with
            | diverge => rw [hall] at h; exact Option.some.inj h
            | throws e => rw [hall] at h; exact Option.some.inj h
            | ok stf => rw [hall] at h; exact Option.some.inj h


/-! ### Raw/normalized correspondence -/

/-- With duplicate-free titles, each raw task's lookup in the normalized
map yields exactly its normalized counterpart. -/
lemma raw_findTask (ts : List RawTask) (tm : List Task)
    (hfa : List.Forall₂ NormRel ts tm) (hnd : (titles tm).Nodup)
    (r : RawTask) (hr : r ∈ ts) :
    ∃ t, findTask tm r.title = some t ∧ NormRel r t := by
  obtain ⟨t, ht, hrel⟩ := forall2_mem_left hfa r hr
  refine ⟨t, ?_, hrel⟩
  have h1 := findTask_of_mem tm t ht hnd
  rw [hrel.1] at h1
  exact h1

/-- Direct dependencies transfer from the normalized map back to the raw
input. -/
lemma dependsOnR_raw (ts : List RawTask) (tm : List Task)
    (hfa : List.Forall₂ NormRel ts tm) (a b : String)
    (h : dependsOnR tm a b) : rawDependsOn ts a b := by
  unfold dependsOnR depsOf at h
  cases hft : findTask tm a with
  | none => rw [hft] at h; simp at h
  | some t =>
    rw [hft] at h
    simp only [Option.map_some', Option.getD_some] at h
    obtain ⟨htm, hta⟩ := findTask_eq_some tm a t hft
    obtain ⟨r, hrts, hrel⟩ := forall2_mem_right hfa t htm
    refine ⟨r, hrts, ?_, ?_⟩
    · rw [← hrel.1, hta]
    · rw [← hrel.2.2.1]
      exact h

/-- Direct dependencies transfer from the raw input to the normalized map
when titles are duplicate-free. -/
lemma raw_dependsOnR (ts : List RawTask) (tm : List Task)
    (hfa : List.Forall₂ NormRel ts tm) (hnd : (titles tm).Nodup) (a b : String)
    (h : rawDependsOn ts a b) : dependsOnR tm a b := by
  obtain ⟨r, hr, hra, hb⟩ := h
  obtain ⟨t, hft, hrel⟩ := raw_findTask ts tm hfa hnd r hr
  rw [hra] at hft
  unfold dependsOnR depsOf
  rw [hft]
  simp only [Option.map_some', Option.getD_some]
  rw [hrel.2.2.1]
  exact hb

/-- A cycle in the normalized dependency graph is a cycle of the raw input. -/
lemma hasCycle_raw (ts : List RawTask) (tm : List Task)
    (hfa : List.Forall₂ NormRel ts tm) (h : hasCycle tm) : rawHasCycle ts := by
  obtain ⟨x, hx, hcyc⟩ := h
  have he : titles tm = ts.map RawTask.title := forall2_titles ts tm hfa
  refine ⟨x, he ▸ hx, ?_⟩
  exact Relation.TransGen.mono (fun a b hab => dependsOnR_raw ts tm hfa a b hab) hcyc

/-- A cycle of the raw input is a cycle of the normalized dependency graph
when titles are duplicate-free. -/
lemma raw_hasCycle (ts : List RawTask) (tm : List Task)
    (hfa : List.Forall₂ NormRel ts tm) (hnd : (titles tm).Nodup)
    (h : rawHasCycle ts) : hasCycle tm := by
  obtain ⟨x, hx, hcyc⟩ := h
  have he : titles tm = ts.map RawTask.title := forall2_titles ts tm hfa
  refine ⟨x, he ▸ hx, ?_⟩
  exact Relation.TransGen.mono (fun a b hab => raw_dependsOnR ts tm hfa hnd a b hab) hcyc

/-- A registry failure always stems from a bad descriptor or a duplicate
title (relative to the accumulated prefix). -/
lemma buildTaskMap_error (ts : List RawTask) : ∀ (acc : List Task) (e : String),
    buildTaskMap ts acc = .error e →
    (∃ t ∈ ts, t.title = "" ∨ t.estimatedHours ≤ 0 ∨ parseDate t.dueDate = none) ∨
      ¬ (acc.map Task.title ++ ts.map RawTask.title).Nodup := by
  induction ts with
  | nil => intro acc e h; simp [buildTaskMap] at h
  | cons t ts ih =>
    intro acc e h
    simp only [buildTaskMap] at h
    by_cases h1 : t.title = "" ∨ t.estimatedHours ≤ 0
    · rcases h1 with h1 | h1
      · exact Or.inl ⟨t, List.mem_cons_self _ _, Or.inl h1⟩
      · exact Or.inl ⟨t, List.mem_cons_self _ _, Or.inr (Or.inl h1)⟩
    rw [if_neg h1] at h
    cases hp : parseDate t.dueDate with
    | none => exact Or.inl ⟨t, List.mem_cons_self _ _, Or.inr (Or.inr hp)⟩
    | some due =>
      rw [hp] at h
      dsimp only at h
      by_cases h2 : ((acc.map Task.title).contains t.title : Bool)
      · right
        intro hnd
        have hmem : t.title ∈ acc.map Task.title := by
          simpa [List.elem_eq_mem] using h2
        simp only [List.map_cons] at hnd
        rw [List.nodup_append] at hnd
        exact (hnd.2.2 hmem) (by simp)
      · rw [if_neg h2] at h
        rcases ih _ _ h with h3 | h3
        · obtain ⟨u, hu, hw⟩ := h3
          exact Or.inl ⟨u, List.mem_cons_of_mem _ hu, hw⟩
        · right
          intro hnd
          apply h3
          have heq : (acc ++ [(⟨t.title, t.estimatedHours, due, t.deps⟩ : Task)]).map Task.title
              ++ ts.map RawTask.title
              = acc.map Task.title ++ (t :: ts).map RawTask.title := by
            simp
          rw [heq]
          exact hnd

/-- Strictly valid dates are accepted unchanged by the lenient parser. -/
lemma parseDateLenient_of_parseDate (s : String) (n : ℕ) (h : parseDate s = some n) :
    parseDateLenient s = some n := by
  unfold parseDateLenient
  rw [h]


/-! ### Termination of the allocation walk -/

/-- With a recognizable workday name, the source's day-advance helper always
succeeds and resets the day's free hours. -/
lemma advance_some (wds : List String) (hpd : ℚ) (st : AState)
    (hwd : hasRealWorkday wds) :
    ∃ st2, advanceToNextWorkday wds hpd st = some st2 ∧ st2.freeHoursToday = hpd := by
  obtain ⟨nd, hnd⟩ := Option.isSome_iff_exists.mp
    (nextWorkday_isSome (st.currentDay + 1) wds hwd)
  refine ⟨{ st with currentDay := nd, freeHoursToday := hpd }, ?_, rfl⟩
  rw [advanceToNextWorkday, hnd]
  rfl

/-- With a positive day length, a full day of free hours and a recognizable
workday, fuel `n + 1` completes the loop whenever at most `n · hpd` hours
are outstanding. -/
lemma allocLoop_full (wds : List String) (hpd : ℚ) (t : Task)
    (hhpd : 0 < hpd) (hwd : hasRealWorkday wds) :
    ∀ (n : ℕ) (rem : ℚ) (st : AState), rem ≤ n * hpd → st.freeHoursToday = hpd →
      (allocLoop wds hpd t (n + 1) rem st).isSome := by
  intro n
  induction n with
  | zero =>
    intro rem st hrem hfree
    have hrem0 : rem ≤ 0 := by simpa using hrem
    simp only [allocLoop]
    rw [if_pos hrem0]
    simp
  | succ n ih =>
    intro rem st hrem hfree
    by_cases hrem0 : rem ≤ 0
    · simp only [allocLoop]
      rw [if_pos hrem0]
      simp
    · push_neg at hrem0
      simp only [allocLoop]
      rw [if_neg (not_le.mpr hrem0)]
      obtain ⟨W, hWdef⟩ : ∃ W, W = (if t.dueDate < st.currentDay then
          { st with warnings := st.warnings ++ [⟨t.title, t.dueDate, st.currentDay⟩] }
        else st) := ⟨_, rfl⟩
      rw [← hWdef]
      have hWfree : W.freeHoursToday = hpd := by
        rw [hWdef]
        by_cases hdue : t.dueDate < st.currentDay
        · rw [if_pos hdue]
          exact hfree
        · rw [if_neg hdue]
          exact hfree
      rw [if_neg (by rw [hWfree]; exact not_le.mpr hhpd)]
      by_cases hsplit : 0 < rem - min W.freeHoursToday rem
      · rw [if_pos hsplit]
        obtain ⟨st2, hst2⟩ : ∃ st2, st2 = { W with
            schedule := addAllocation W.schedule W.currentDay t.title
              (min W.freeHoursToday rem),
            freeHoursToday := W.freeHoursToday - min W.freeHoursToday rem } := ⟨_, rfl⟩
        rw [← hst2]
        obtain ⟨st3, hadv, hfree3⟩ := advance_some wds hpd st2 hwd
        rw [hadv]
        dsimp only
        apply ih (rem - min W.freeHoursToday rem) st3 ?_ hfree3
        have hmin : min W.freeHoursToday rem = hpd := by
          rcases min_cases W.freeHoursToday rem with ⟨he, -⟩ | ⟨he, -⟩
          · rw [he, hWfree]
          · exfalso
            rw [he] at hsplit
            simp at hsplit
        rw [hmin]
        have hc : rem ≤ ((n : ℚ) + 1) * hpd := by
          push_cast at hrem
          linarith
        linarith
      · rw [if_neg hsplit]
        simp

/-- With a positive day length and a recognizable workday, `allocFuel` is
always enough fuel: the source's per-task loop terminates. -/
lemma allocLoop_enough_fuel (wds : List String) (hpd : ℚ) (t : Task)
    (hhpd : 0 < hpd) (hwd : hasRealWorkday wds) (rem : ℚ) (st : AState) :
    (allocLoop wds hpd t (allocFuel rem hpd) rem st).isSome := by
  by_cases hrem0 : rem ≤ 0
  · obtain ⟨f, hf⟩ : ∃ f, allocFuel rem hpd = f + 1 :=
      ⟨2 * (⌈rem / hpd⌉).toNat + 2, by unfold allocFuel; omega⟩
    rw [hf]
    simp only [allocLoop]
    rw [if_pos hrem0]
    simp
  · push_neg at hrem0
    have hkpos : (0 : ℚ) < rem / hpd := div_pos hrem0 hhpd
    have hknn : (0 : ℤ) ≤ ⌈rem / hpd⌉ := Int.ceil_nonneg (le_of_lt hkpos)
    obtain ⟨k, hk⟩ : ∃ k : ℕ, (k : ℤ) = ⌈rem / hpd⌉ :=
      ⟨(⌈rem / hpd⌉).toNat, Int.toNat_of_nonneg hknn⟩
    have hremle : rem ≤ (k : ℚ) * hpd := by
      have h1 : rem / hpd ≤ ((⌈rem / hpd⌉ : ℤ) : ℚ) := Int.le_ceil _
      rw [← hk] at h1
      push_cast at h1
      have h2 : rem = rem / hpd * hpd := by
        field_simp
      rw [h2]
      exact mul_le_mul_of_nonneg_right h1 (le_of_lt hhpd)
    have hle21 : rem ≤ ((2 * k + 1 : ℕ) : ℚ) * hpd := by
      have he : ((2 * k + 1 : ℕ) : ℚ) * hpd = (k : ℚ) * hpd + ((k : ℚ) + 1) * hpd := by
        push_cast
        ring
      have hx : (0 : ℚ) ≤ ((k : ℚ) + 1) * hpd :=
        mul_nonneg (by positivity) (le_of_lt hhpd)
      rw [he]
      linarith
    have hfuel : allocFuel rem hpd = ((2 * k + 1) + 1) + 1 := by
      unfold allocFuel
      omega
    rw [hfuel]
    simp only [allocLoop]
    rw [if_neg (not_le.mpr hrem0)]
    obtain ⟨W, hWdef⟩ : ∃ W, W = (if t.dueDate < st.currentDay then
        { st with warnings := st.warnings ++ [⟨t.title, t.dueDate, st.currentDay⟩] }
      else st) := ⟨_, rfl⟩
    rw [← hWdef]
    by_cases hfree : W.freeHoursToday ≤ 0
    · rw [if_pos hfree]
      obtain ⟨st2, hadv, hfree2⟩ := advance_some wds hpd W hwd
      rw [hadv]
      dsimp only
      exact allocLoop_full wds hpd t hhpd hwd (2 * k + 1) rem st2 hle21 hfree2
    · rw [if_neg hfree]
      by_cases hsplit : 0 < rem - min W.freeHoursToday rem
      · rw [if_pos hsplit]
        obtain ⟨st2, hst2⟩ : ∃ st2, st2 = { W with
            schedule := addAllocation W.schedule W.currentDay t.title
              (min W.freeHoursToday rem),
            freeHoursToday := W.freeHoursToday - min W.freeHoursToday rem } := ⟨_, rfl⟩
        rw [← hst2]
        obtain ⟨st3, hadv, hfree3⟩ := advance_some wds hpd st2 hwd
        rw [hadv]
        dsimp only
        apply allocLoop_full wds hpd t hhpd hwd (2 * k + 1) _ st3 ?_ hfree3
        have hminnn : 0 ≤ min W.freeHoursToday rem :=
          le_min (le_of_lt (lt_of_not_le hfree)) (le_of_lt hrem0)
        linarith
      · rw [if_neg hsplit]
        simp

/-- The per-task allocation step never loops with a positive day length and
a recognizable workday. -/
lemma processTaskRest_no_diverge (tm : List Task) (wds : List String) (hpd : ℚ)
    (t : Task) (st1 : AState) (hhpd : 0 < hpd) (hwd : hasRealWorkday wds) :
    processTaskRest tm wds hpd t st1 ≠ .diverge := by
  unfold processTaskRest
  obtain ⟨st2, hal⟩ := Option.isSome_iff_exists.mp
    (allocLoop_enough_fuel wds hpd t hhpd hwd t.estimatedHours st1)
  rw [hal]
  dsimp only
  cases lastAllocDay st2.schedule t.title with
  | none =>
    intro h
    cases h
  | some fd =>
    intro h
    cases h

/-- The per-task step (gating plus allocation) never loops with a positive
day length and a recognizable workday. -/
lemma processTask_no_diverge (tm : List Task) (wds : List String) (hpd : ℚ)
    (today : ℕ) (st : AState) (title : String)
    (hhpd : 0 < hpd) (hwd : hasRealWorkday wds) :
    processTask tm wds hpd today st title ≠ .diverge := by
  unfold processTask
  cases hft : findTask tm title with
  | none =>
    intro h
    cases h
  | some t =>
    dsimp only
    by_cases hgate : st.currentDay < earliestReadyOf today st.finishedAt t.dependencies
    · rw [if_pos hgate]
      obtain ⟨nd, hnd⟩ := Option.isSome_iff_exists.mp
        (nextWorkday_isSome (earliestReadyOf today st.finishedAt t.dependencies) wds hwd)
      rw [hnd]
      simp only [Option.map_some']
      exact processTaskRest_no_diverge tm wds hpd t _ hhpd hwd
    · rw [if_neg hgate]
      exact processTaskRest_no_diverge tm wds hpd t st hhpd hwd

/-- The whole allocation walk never loops with a positive day length and a
recognizable workday. -/
lemma allocAll_no_diverge (tm : List Task) (wds : List String) (hpd : ℚ)
    (today : ℕ) (hhpd : 0 < hpd) (hwd : hasRealWorkday wds) :
    ∀ (order : List String) (st : AState),
      allocAll tm wds hpd today order st ≠ .diverge := by
  intro order
  induction order with
  | nil =>
    intro st h
    cases h
  | cons x rest ih =>
    intro st h
    simp only [allocAll] at h
    cases hpt : processTask tm wds hpd today st x with
    | ok st2 =>
      rw [hpt] at h
      dsimp only at h
      exact ih st2 h
    | diverge => exact processTask_no_diverge tm wds hpd today st x hhpd hwd hpt
    | throws e =>
      rw [hpt] at h
      dsimp only at h
      cases h

/-- `scheduleTasks` never loops when the day length is positive, the
workday set names a recognizable weekday, and the start day is available. -/
lemma scheduleTasks_no_diverge (inp : SchedInput) (today : ℕ)
    (hhpd : 0 < inp.workHoursPerDay) (hwd : hasRealWorkday inp.workDays)
    (hsd : (startSerial inp today).isSome) :
    scheduleTasks inp today ≠ .diverge := by
  unfold scheduleTasks
  by_cases hlen0 : inp.tasks.length = 0
  · rw [if_pos hlen0]
    intro h
    cases h
  rw [if_neg hlen0]
  cases hbuild : buildTaskMap inp.tasks [] with
  | error e =>
    intro h
    cases h
  | ok tm =>
    dsimp only
    cases hcheck : checkDeps tm with
    | error e =>
      intro h
      cases h
    | ok u =>
      dsimp only
      by_cases hlen : (runSequencer tm).length ≠ tm.length
      · rw [if_pos hlen]
        intro h
        cases h
      rw [if_neg hlen]
      obtain ⟨s0, hs0⟩ := Option.isSome_iff_exists.mp hsd
      rw [hs0]
      dsimp only
      obtain ⟨d0, hd0⟩ := Option.isSome_iff_exists.mp
        (nextWorkday_isSome s0 inp.workDays hwd)
      rw [hd0]
      dsimp only
      cases hall : allocAll tm inp.workDays inp.workHoursPerDay today (runSequencer tm)
          ⟨d0, inp.workHoursPerDay, [], [], []⟩ with
      | diverge => exact absurd hall (allocAll_no_diverge tm inp.workDays
          inp.workHoursPerDay today hhpd hwd _ _)
      | throws e =>
        intro h
        cases h
      | ok stf =>
        intro h
        cases h


/-! ### The error taxonomy: throwing exactly characterized -/

/-- An allocation for `ttl` is present after `addAllocation`. -/
lemma addAllocation_exists (sch : List DayRec) (d : ℕ) (ttl : String) (hq : ℚ) :
    ∃ r ∈ addAllocation sch d ttl hq, ∃ a ∈ r.allocations, a.title = ttl := by
  induction sch with
  | nil => exact ⟨⟨d, [⟨ttl, hq⟩]⟩, by simp [addAllocation], ⟨ttl, hq⟩, by simp, rfl⟩
  | cons r0 rs ih =>
    by_cases h0 : r0.date = d
    · refine ⟨⟨r0.date, r0.allocations ++ [⟨ttl, hq⟩]⟩, ?_, ⟨ttl, hq⟩, by simp, rfl⟩
      simp [addAllocation, h0]
    · obtain ⟨r, hr, a, ha, hat⟩ := ih
      refine ⟨r, ?_, a, ha, hat⟩
      simp only [addAllocation, if_neg h0]
      exact List.mem_cons_of_mem _ hr

/-- A completed loop run with hours outstanding leaves an allocation for the
task in the schedule. -/
lemma allocLoop_ok_mem (wds : List String) (hpd : ℚ) (t : Task) :
    ∀ (fuel : ℕ) (rem : ℚ) (st st2 : AState),
      0 < rem → allocLoop wds hpd t fuel rem st = some st2 →
      ∃ r ∈ st2.schedule, ∃ a ∈ r.allocations, a.title = t.title := by
  intro fuel
  induction fuel with
  | zero =>
    intro rem st st2 hrem h
    cases h
  | succ fuel ih =>
    intro rem st st2 hrem h
    simp only [allocLoop] at h
    rw [if_neg (not_le.mpr hrem)] at h
    obtain ⟨W, hWdef⟩ : ∃ W, W = (if t.dueDate < st.currentDay then
        { st with warnings := st.warnings ++ [⟨t.title, t.dueDate, st.currentDay⟩] }
      else st) := ⟨_, rfl⟩
    rw [← hWdef] at h
    by_cases hfree : W.freeHoursToday ≤ 0
    · rw [if_pos hfree] at h
      cases hadv : advanceToNextWorkday wds hpd W with
      | none =>
        rw [hadv] at h
        cases h
      | some stA =>
        rw [hadv] at h
        dsimp only at h
        exact ih rem stA st2 hrem h
    · rw [if_neg hfree] at h
      by_cases hsplit : 0 < rem - min W.freeHoursToday rem
      · rw [if_pos hsplit] at h
        obtain ⟨stB, hstB⟩ : ∃ stB, stB = { W with
            schedule := addAllocation W.schedule W.currentDay t.title
              (min W.freeHoursToday rem),
            freeHoursToday := W.freeHoursToday - min W.freeHoursToday rem } := ⟨_, rfl⟩
        rw [← hstB] at h
        cases hadv : advanceToNextWorkday wds hpd stB with
        | none =>
          rw [hadv] at h
          cases h
        | some stC =>
          rw [hadv] at h
          dsimp only at h
          exact ih _ stC st2 hsplit h
      · rw [if_neg hsplit] at h
        have hs : ({ W with
            schedule := addAllocation W.schedule W.currentDay t.title
              (min W.freeHoursToday rem),
            freeHoursToday := W.freeHoursToday - min W.freeHoursToday rem } : AState)
            = st2 := Option.some.inj h
        rw [← hs]
        exact addAllocation_exists W.schedule W.currentDay t.title
          (min W.freeHoursToday rem)

/-- The per-task allocation step never throws once the task has a positive
estimate: the source's "shouldn't happen" lookup is indeed unreachable. -/
lemma processTaskRest_never_throws (tm : List Task) (wds : List String) (hpd : ℚ)
    (t : Task) (st1 : AState) (hest : 0 < t.estimatedHours) :
    ∀ e, processTaskRest tm wds hpd t st1 ≠ .throws e := by
  intro e
  unfold processTaskRest
  cases hal : allocLoop wds hpd t (allocFuel t.estimatedHours hpd)
      t.estimatedHours st1 with
  | none =>
    intro h
    cases h
  | some st2 =>
    dsimp only
    have hmem := allocLoop_ok_mem wds hpd t _ _ st1 st2 hest hal
    cases hlast : lastAllocDay st2.schedule t.title with
    | none =>
      have hsome := lastAllocDay_isSome_of_mem st2.schedule t.title hmem
      rw [hlast] at hsome
      simp at hsome
    | some fd =>
      intro h
      cases h

/-- The per-task step never throws when the title is known and estimates
are positive. -/
lemma processTask_never_throws (tm : List Task) (wds : List String) (hpd : ℚ)
    (today : ℕ) (st : AState) (title : String)
    (htitle : title ∈ titles tm)
    (hestpos : ∀ u ∈ tm, 0 < u.estimatedHours) :
    ∀ e, processTask tm wds hpd today st title ≠ .throws e := by
  intro e
  unfold processTask
  obtain ⟨t, ht⟩ := Option.isSome_iff_exists.mp ((findTask_isSome_iff tm title).mpr htitle)
  rw [ht]
  dsimp only
  obtain ⟨htm, -⟩ := findTask_eq_some tm title t ht
  by_cases hgate : st.currentDay < earliestReadyOf today st.finishedAt t.dependencies
  · rw [if_pos hgate]
    cases hnw : nextWorkday (earliestReadyOf today st.finishedAt t.dependencies) wds with
    | none =>
      simp only [Option.map_none']
      intro h
      cases h
    | some nd =>
      simp only [Option.map_some']
      exact processTaskRest_never_throws tm wds hpd t _ (hestpos t htm) e
  · rw [if_neg hgate]
    exact processTaskRest_never_throws tm wds hpd t st (hestpos t htm) e

/-- The whole allocation walk never throws when the order stays inside the
task map and estimates are positive. -/
lemma allocAll_never_throws (tm : List Task) (wds : List String) (hpd : ℚ)
    (today : ℕ) (hestpos : ∀ u ∈ tm, 0 < u.estimatedHours) :
    ∀ (order : List String), (∀ x ∈ order, x ∈ titles tm) →
      ∀ (st : AState) (e : String), allocAll tm wds hpd today order st ≠ .throws e := by
  intro order
  induction order with
  | nil =>
    intro hsub st e h
    cases h
  | cons x rest ih =>
    intro hsub st e h
    simp only [allocAll] at h
    cases hpt : processTask tm wds hpd today st x with
    | ok st2 =>
      rw [hpt] at h
      dsimp only at h
      exact ih (fun y hy => hsub y (List.mem_cons_of_mem _ hy)) st2 e h
    | diverge =>
      rw [hpt] at h
      dsimp only at h
      cases h
    | throws e2 =>
      exact processTask_never_throws tm wds hpd today st x
        (hsub x (List.mem_cons_self _ _)) hestpos e2 hpt

/-- `scheduleTasks` throws exactly on the spec's error taxonomy, evaluated
on the raw input. -/
lemma scheduleTasks_throws_iff (inp : SchedInput) (today : ℕ) :
    (∃ e, scheduleTasks inp today = .throws e) ↔ scheduleFails inp := by
  constructor
  · rintro ⟨e, h⟩
    unfold scheduleTasks at h
    by_cases hlen0 : inp.tasks.length = 0
    · exact Or.inl (List.length_eq_zero.mp hlen0)
    rw [if_neg hlen0] at h
    cases hbuild : buildTaskMap inp.tasks [] with
    | error e2 =>
      rcases buildTaskMap_error inp.tasks [] e2 hbuild with h3 | h3
      · exact Or.inr (Or.inl h3)
      · refine Or.inr (Or.inr (Or.inl ?_))
        simpa using h3
    | ok tm =>
      rw [hbuild] at h
      dsimp only at h
      obtain ⟨tl, htl, hfa⟩ := buildTaskMap_ok inp.tasks [] tm hbuild
      rw [List.nil_append] at htl
      subst htl
      have hnodup : (titles tm).Nodup :=
        buildTaskMap_ok_nodup inp.tasks [] tm hbuild (by simp)
      have htitles : titles tm = inp.tasks.map RawTask.title := forall2_titles _ _ hfa
      cases hcheck : checkDeps tm with
      | error e2 =>
        refine Or.inr (Or.inr (Or.inr (Or.inl ?_)))
        by_contra hc
        push_neg at hc
        have hok : checkDeps tm = .ok () := by
          rw [checkDeps_ok_iff]
          intro t ht d hd
          obtain ⟨r, hr, hrel⟩ := forall2_mem_right hfa t ht
          have hd2 : d ∈ r.deps := by
            rw [← hrel.2.2.1]
            exact hd
          have hcd := hc r hr d hd2
          refine ⟨?_, ?_⟩
          · rw [htitles]
            exact hcd.1
          · rw [hrel.1]
            exact hcd.2
        rw [hok] at hcheck
        cases hcheck
      | ok u =>
        cases u
        rw [hcheck] at h
        dsimp only at h
        have hcd := (checkDeps_ok_iff tm).mp hcheck
        have hctx : TMCtx tm := ⟨hnodup, fun t ht d hd => (hcd t ht d hd).1,
          fun t ht d hd => (hcd t ht d hd).2⟩
        by_cases hlen : (runSequencer tm).length ≠ tm.length
        · refine Or.inr (Or.inr (Or.inr (Or.inr ?_)))
          exact hasCycle_raw inp.tasks tm hfa (runSequencer_incomplete_cycle tm hctx hlen)
        rw [if_neg hlen] at h
        exfalso
        cases hstart : startSerial inp today with
        | none =>
          rw [hstart] at h
          cases h
        | some s0 =>
          rw [hstart] at h
          dsimp only at h
          cases hnw : nextWorkday s0 inp.workDays with
          | none =>
            rw [hnw] at h
            cases h
          | some d0 =>
            rw [hnw] at h
            dsimp only at h
            have hestpos : ∀ u ∈ tm, 0 < u.estimatedHours := by
              intro u hu
              obtain ⟨r, -, hrel⟩ := forall2_mem_right hfa u hu
              rw [hrel.2.1]
              exact hrel.2.2.2.2.2
            cases hall : allocAll tm inp.workDays inp.workHoursPerDay today
                (runSequencer tm) ⟨d0, inp.workHoursPerDay, [], [], []⟩ with
            | diverge =>
              rw [hall] at h
              cases h
            | ok stf =>
              rw [hall] at h
              cases h
            | throws e2 =>
              exact allocAll_never_throws tm inp.workDays inp.workHoursPerDay today
                hestpos (runSequencer tm) (runSequencer_sub tm hctx) _ e2 hall
  · intro hfail
    unfold scheduleTasks
    by_cases hlen0 : inp.tasks.length = 0
    · rw [if_pos hlen0]
      exact ⟨_, rfl⟩
    rw [if_neg hlen0]
    cases hbuild : buildTaskMap inp.tasks [] with
    | error e2 => exact ⟨e2, rfl⟩
    | ok tm =>
      dsimp only
      obtain ⟨tl, htl, hfa⟩ := buildTaskMap_ok inp.tasks [] tm hbuild
      rw [List.nil_append] at htl
      subst htl
      have hnodup : (titles tm).Nodup :=
        buildTaskMap_ok_nodup inp.tasks [] tm hbuild (by simp)
      have htitles : titles tm = inp.tasks.map RawTask.title := forall2_titles _ _ hfa
      rcases hfail with h1 | h2 | h3 | h4 | h5
      · exact absurd (by rw [h1]; rfl) hlen0
      · exfalso
        obtain ⟨t, ht, hbad⟩ := h2
        obtain ⟨u, hu, hrel⟩ := forall2_mem_left hfa t ht
        rcases hbad with hb | hb | hb
        · exact hrel.2.2.2.2.1 hb
        · exact absurd hrel.2.2.2.2.2 (not_lt.mpr hb)
        · have hx := hrel.2.2.2.1
          rw [hb] at hx
          cases hx
      · exact absurd (htitles ▸ hnodup) h3
      · cases hcheck : checkDeps tm with
        | error e2 => exact ⟨e2, rfl⟩
        | ok u =>
          exfalso
          cases u
          have hcd := (checkDeps_ok_iff tm).mp hcheck
          obtain ⟨t, ht, d, hd, hbad⟩ := h4
          obtain ⟨tt, hft, hrel⟩ := raw_findTask inp.tasks tm hfa hnodup t ht
          obtain ⟨httm, -⟩ := findTask_eq_some tm t.title tt hft
          have hd2 : d ∈ tt.dependencies := by
            rw [hrel.2.2.1]
            exact hd
          obtain ⟨hin, hne⟩ := hcd tt httm d hd2
          rcases hbad with hb | hb
          · exact hb (htitles ▸ hin)
          · refine hne ?_
            rw [hrel.1]
            exact hb
      · cases hcheck : checkDeps tm with
        | error e2 => exact ⟨e2, rfl⟩
        | ok u =>
          cases u
          dsimp only
          have hcd := (checkDeps_ok_iff tm).mp hcheck
          have hctx : TMCtx tm := ⟨hnodup, fun t ht d hd => (hcd t ht d hd).1,
            fun t ht d hd => (hcd t ht d hd).2⟩
          have hcyc : hasCycle tm := raw_hasCycle inp.tasks tm hfa hnodup h5
          have hlen : (runSequencer tm).length ≠ tm.length := by
            intro hl
            exact runSequencer_no_cycle tm hctx hl hcyc
          rw [if_pos hlen]
          exact ⟨_, rfl⟩


/-! ### Concrete inputs for the verified properties -/

/-- Two tasks with one dependency (B after A), five-day week, Monday start. -/
def W2inp : SchedInput :=
  ⟨[⟨"A", 8, "2024-02-10", some []⟩, ⟨"B", 4, "2024-02-10", some ["A"]⟩],
   8, ["Mon", "Tue", "Wed", "Thu", "Fri"], some "2024-01-08"⟩

/-- The run of `W2inp`: A fills Monday, B runs Tuesday. -/
def W2out : ScheduleOutput :=
  ⟨["A", "B"], [⟨739258, [⟨"A", 8⟩]⟩, ⟨739259, [⟨"B", 4⟩]⟩], []⟩

unseal Rat.add Rat.sub Rat.mul Rat.inv in
lemma W2_ok : scheduleTasks W2inp 0 = Outcome.ok W2out :=
  scheduleTasksF_eq 10 W2inp 0 _ (by decide)

/-- Three tasks: "A" is due first but depends on "C"; "A" and "B" are
mutually unconstrained. -/
def C2tasks : List RawTask :=
  [⟨"A", 1, "2024-01-09", some ["C"]⟩, ⟨"B", 1, "2024-01-10", some []⟩,
   ⟨"C", 1, "2024-01-11", some []⟩]

def C2inp : SchedInput :=
  ⟨C2tasks, 8, ["Mon", "Tue", "Wed", "Thu", "Fri"], some "2024-01-08"⟩

/-- The run of `C2inp`: the order is B, C, A although A is due first and
unconstrained relative to B. -/
def C2out : ScheduleOutput :=
  ⟨["B", "C", "A"], [⟨739258, [⟨"B", 1⟩, ⟨"C", 1⟩, ⟨"A", 1⟩]⟩], []⟩

unseal Rat.add Rat.sub Rat.mul Rat.inv in
lemma C2_ok : scheduleTasks C2inp 0 = Outcome.ok C2out :=
  scheduleTasksF_eq 10 C2inp 0 _ (by decide)

/-- A start date in slash format, rejected by strict parsing. -/
def C5inp : SchedInput :=
  ⟨[⟨"A", 2, "2024-01-10", some []⟩], 8, ["Mon", "Tue", "Wed", "Thu", "Fri"],
   some "2024/01/08"⟩

/-- The run of `C5inp`: the slash start date is silently coerced. -/
def C5out : ScheduleOutput := ⟨["A"], [⟨739258, [⟨"A", 2⟩]⟩], []⟩

unseal Rat.add Rat.sub Rat.mul Rat.inv in
lemma C5_ok : scheduleTasks C5inp 0 = Outcome.ok C5out :=
  scheduleTasksF_eq 10 C5inp 0 _ (by decide)

/-- A task whose due date is not in the strict format. -/
def C5winp : SchedInput :=
  ⟨[⟨"A", 2, "01/10/2024", some []⟩], 8, ["Mon", "Tue", "Wed", "Thu", "Fri"], none⟩

/-- Full weekday names: valid per the entry contract, unrecognized by the
source's three-letter table. -/
def C9inp : SchedInput :=
  ⟨[⟨"A", 2, "2024-01-10", some []⟩], 8,
   ["Monday", "Tuesday", "Wednesday", "Thursday", "Friday"], some "2024-01-08"⟩

unseal Rat.add Rat.sub Rat.mul Rat.inv in
lemma C9_diverges : scheduleTasks C9inp 0 = Outcome.diverge :=
  scheduleTasksF_eq 10 C9inp 0 _ (by decide)

/-! ### The claims -/

/-- C1: for every input on which `scheduleTasks` succeeds, the returned
`recommendedOrder` is a permutation of all task titles, and for every
dependency edge (dep, title) the dependency precedes the dependent in the
order. -/
theorem C1_order_permutation_topological (inp : SchedInput) (today : ℕ)
    (out : ScheduleOutput) (h : scheduleTasks inp today = .ok out) :
    out.recommendedOrder.Perm (inp.tasks.map RawTask.title) ∧
    ∀ t ∈ inp.tasks, ∀ d ∈ t.deps, listBefore d t.title out.recommendedOrder := by
  obtain ⟨tm, stf, hbuild, hcheck, hctx, hestpos, hfa2, hlen, hord, hsch, hainv⟩ :=
    scheduleTasks_ok_big inp today out h
  have htitles : titles tm = inp.tasks.map RawTask.title := forall2_titles _ _ hfa2
  constructor
  · rw [hord, ← htitles]
    exact runSequencer_perm tm hctx hlen
  · intro t ht d hd
    obtain ⟨tt, hft, hrel⟩ := raw_findTask inp.tasks tm hfa2 hctx.nodup t ht
    have htT : t.title ∈ titles tm := by
      rw [htitles]
      exact List.mem_map_of_mem _ ht
    have hdep : d ∈ depsOf tm t.title := by
      unfold depsOf
      rw [hft]
      simp only [Option.map_some', Option.getD_some]
      rw [hrel.2.2.1]
      exact hd
    rw [hord]
    exact runSequencer_before tm hctx hlen t.title htT d hdep

/-- C1 witness: the two-task example run instantiates the theorem. -/
theorem C1_witness :
    scheduleTasks W2inp 0 = Outcome.ok W2out ∧
    (W2out.recommendedOrder.Perm (W2inp.tasks.map RawTask.title) ∧
      ∀ t ∈ W2inp.tasks, ∀ d ∈ t.deps, listBefore d t.title W2out.recommendedOrder) :=
  ⟨W2_ok, C1_order_permutation_topological W2inp 0 W2out W2_ok⟩

/-- C2 (amended): the order is deterministic with the priority policy
applied to the ready set: each emitted task is ready after the prefix
before it and comparator-minimal (due date ascending, then estimated hours
descending, then title) among all tasks then ready — not among all pairs of
merely unconstrained tasks. -/
theorem C2_priority_policy_ready_set (inp : SchedInput) (today : ℕ)
    (out : ScheduleOutput) (h : scheduleTasks inp today = .ok out) :
    ∃ tm, buildTaskMap inp.tasks [] = .ok tm ∧
      out.recommendedOrder.Perm (titles tm) ∧
      ∀ i x, out.recommendedOrder[i]? = some x →
        readyAfter tm (out.recommendedOrder.take i) x ∧
        ∀ y, readyAfter tm (out.recommendedOrder.take i) y → cmpLE tm x y = true := by
  obtain ⟨tm, stf, hbuild, hcheck, hctx, hestpos, hfa2, hlen, hord, hsch, hainv⟩ :=
    scheduleTasks_ok_big inp today out h
  refine ⟨tm, hbuild, ?_, ?_⟩
  · rw [hord]
    exact runSequencer_perm tm hctx hlen
  · intro i x hx
    rw [hord] at hx ⊢
    obtain ⟨hlt, hget⟩ := List.getElem?_eq_some.mp hx
    have hpos := runSequencer_pos tm hctx i hlt
    have hgx : (runSequencer tm).get ⟨i, hlt⟩ = x := by
      rw [List.get_eq_getElem]
      exact hget
    rw [hgx] at hpos
    exact hpos

/-- C2 witness: the two-task example run instantiates the amended theorem. -/
theorem C2_witness :
    scheduleTasks W2inp 0 = Outcome.ok W2out ∧
    (∃ tm, buildTaskMap W2inp.tasks [] = .ok tm ∧
      W2out.recommendedOrder.Perm (titles tm) ∧
      ∀ i x, W2out.recommendedOrder[i]? = some x →
        readyAfter tm (W2out.recommendedOrder.take i) x ∧
        ∀ y, readyAfter tm (W2out.recommendedOrder.take i) y → cmpLE tm x y = true) :=
  ⟨W2_ok, C2_priority_policy_ready_set W2inp 0 W2out W2_ok⟩

/-- C2 counterexample to the original claim: "A" and "B" are mutually
unconstrained and "A" is due a day before "B", yet the returned order puts
"B" strictly before "A" (because "A" waits on its dependency "C" and the
policy only ranks the currently ready set). -/
theorem C2_counterexample :
    scheduleTasks C2inp 0 = Outcome.ok C2out ∧
    C2out.recommendedOrder = ["B", "C", "A"] ∧
    ¬ Relation.TransGen (rawDependsOn C2tasks) "A" "B" ∧
    ¬ Relation.TransGen (rawDependsOn C2tasks) "B" "A" ∧
    (∃ tA ∈ C2tasks, tA.title = "A" ∧ parseDate tA.dueDate = some 739259) ∧
    (∃ tB ∈ C2tasks, tB.title = "B" ∧ parseDate tB.dueDate = some 739260) ∧
    listBefore "B" "A" C2out.recommendedOrder := by
  have hstep : ∀ x y, rawDependsOn C2tasks x y → x = "A" ∧ y = "C" := by
    rintro x y ⟨t, ht, hx, hy⟩
    simp only [C2tasks] at ht
    rcases List.mem_cons.mp ht with rfl | ht
    · refine ⟨hx.symm ▸ rfl, ?_⟩
      simpa [RawTask.deps] using hy
    rcases List.mem_cons.mp ht with rfl | ht
    · simp [RawTask.deps] at hy
    rcases List.mem_cons.mp ht with rfl | ht
    · simp [RawTask.deps] at hy
    · cases ht
  have hlast : ∀ x y, Relation.TransGen (rawDependsOn C2tasks) x y → y = "C" := by
    intro x y h
    induction h with
    | single h1 => exact (hstep _ _ h1).2
    | tail h1 h2 ih => exact (hstep _ _ h2).2
  refine ⟨C2_ok, rfl, ?_, ?_, by decide, by decide, ⟨0, 2, by omega, rfl, rfl⟩⟩
  · intro h
    exact absurd (hlast _ _ h) (by decide)
  · intro h
    exact absurd (hlast _ _ h) (by decide)

/-- C3: for every input on which `scheduleTasks` succeeds, each task's
hours across the whole schedule sum to exactly its estimate. -/
theorem C3_task_hours_exact (inp : SchedInput) (today : ℕ)
    (out : ScheduleOutput) (h : scheduleTasks inp today = .ok out) :
    ∀ t ∈ inp.tasks, taskHours out.schedule t.title = t.estimatedHours := by
  obtain ⟨tm, stf, hbuild, hcheck, hctx, hestpos, hfa2, hlen, hord, hsch, hainv⟩ :=
    scheduleTasks_ok_big inp today out h
  have htitles : titles tm = inp.tasks.map RawTask.title := forall2_titles _ _ hfa2
  intro t ht
  obtain ⟨tt, hft, hrel⟩ := raw_findTask inp.tasks tm hfa2 hctx.nodup t ht
  have htT : t.title ∈ titles tm := by
    rw [htitles]
    exact List.mem_map_of_mem _ ht
  have htR : t.title ∈ runSequencer tm :=
    (runSequencer_perm tm hctx hlen).mem_iff.mpr htT
  have hsum := hainv.tsum t.title htR
  rw [hsch]
  rw [hsum]
  unfold estOf
  rw [hft]
  simp only [Option.map_some', Option.getD_some]
  exact hrel.2.1

/-- C3 witness: the two-task example run instantiates the theorem. -/
theorem C3_witness :
    scheduleTasks W2inp 0 = Outcome.ok W2out ∧
    ∀ t ∈ W2inp.tasks, taskHours W2out.schedule t.title = t.estimatedHours :=
  ⟨W2_ok, C3_task_hours_exact W2inp 0 W2out W2_ok⟩

/-- C4: `scheduleTasks` throws if and only if the task list is empty, a
descriptor has an empty title, non-positive hours or an invalid due date, a
title repeats, a dependency is unknown or self-referential, or the
dependency graph has a cycle; a throw carries no schedule and no partial
output, so every such failure aborts before any allocation is delivered. -/
theorem C4_throws_iff_invalid (inp : SchedInput) (today : ℕ) :
    (∃ e, scheduleTasks inp today = .throws e) ↔ scheduleFails inp :=
  scheduleTasks_throws_iff inp today

/-- C5 (amended): each task's due date is strictly validated against
"YYYY-MM-DD" — any failing string causes the call to throw.  (The start
date, by contrast, is parsed leniently and never validated; see the
counterexample.) -/
theorem C5_strict_due_date_validation (inp : SchedInput) (today : ℕ)
    (h : ∃ t ∈ inp.tasks, parseDate t.dueDate = none) :
    ∃ e, scheduleTasks inp today = .throws e := by
  apply (scheduleTasks_throws_iff inp today).mpr
  obtain ⟨t, ht, hp⟩ := h
  exact Or.inr (Or.inl ⟨t, ht, Or.inr (Or.inr hp)⟩)

/-- C5 witness: a slash-formatted due date makes the call throw. -/
theorem C5_witness :
    (∃ t ∈ C5winp.tasks, parseDate t.dueDate = none) ∧
    (∃ e, scheduleTasks C5winp 0 = Outcome.throws e) :=
  ⟨by decide, C5_strict_due_date_validation C5winp 0 (by decide)⟩

/-- C5 counterexample to the original claim: a start date in slash format
is not a valid strict "YYYY-MM-DD" date, yet the call succeeds — the start
date is coerced, not rejected. -/
theorem C5_counterexample :
    parseDate "2024/01/08" = none ∧
    C5inp.startDate = some "2024/01/08" ∧
    scheduleTasks C5inp 0 = Outcome.ok C5out :=
  ⟨by decide, rfl, C5_ok⟩


/-- C6: for every input on which `scheduleTasks` succeeds, no date's total
allocated hours exceed `workHoursPerDay`. -/
theorem C6_daily_cap (inp : SchedInput) (today : ℕ)
    (out : ScheduleOutput) (h : scheduleTasks inp today = .ok out) :
    ∀ d : ℕ, dayHours out.schedule d ≤ inp.workHoursPerDay := by
  obtain ⟨tm, stf, hbuild, hcheck, hctx, hestpos, hfa2, hlen, hord, hsch, hainv⟩ :=
    scheduleTasks_ok_big inp today out h
  intro d
  rw [hsch]
  by_cases hd : d = stf.currentDay
  · subst hd
    have h1 := hainv.fcur
    have h2 := hainv.fnn
    linarith
  · exact hainv.dmax d hd

/-- C6 witness: the two-task example run instantiates the theorem. -/
theorem C6_witness :
    scheduleTasks W2inp 0 = Outcome.ok W2out ∧
    ∀ d : ℕ, dayHours W2out.schedule d ≤ W2inp.workHoursPerDay :=
  ⟨W2_ok, C6_daily_cap W2inp 0 W2out W2_ok⟩

/-- C7: for every input on which `scheduleTasks` succeeds, no task has an
allocation on a date strictly before the finish date (date of last
allocation) of any of its dependencies: allocations may share that finish
date but never precede it. -/
theorem C7_dependency_finish_gating (inp : SchedInput) (today : ℕ)
    (out : ScheduleOutput) (h : scheduleTasks inp today = .ok out) :
    ∀ t ∈ inp.tasks, ∀ d ∈ t.deps, ∀ fd, lastAllocDay out.schedule d = some fd →
      ∀ r ∈ out.schedule, ∀ a ∈ r.allocations, a.title = t.title → fd ≤ r.date := by
  obtain ⟨tm, stf, hbuild, hcheck, hctx, hestpos, hfa2, hlen, hord, hsch, hainv⟩ :=
    scheduleTasks_ok_big inp today out h
  have htitles : titles tm = inp.tasks.map RawTask.title := forall2_titles _ _ hfa2
  intro t ht d hd fd hfd r hr a ha hat
  obtain ⟨tt, hft, hrel⟩ := raw_findTask inp.tasks tm hfa2 hctx.nodup t ht
  have htT : t.title ∈ titles tm := by
    rw [htitles]
    exact List.mem_map_of_mem _ ht
  have htR : t.title ∈ runSequencer tm :=
    (runSequencer_perm tm hctx hlen).mem_iff.mpr htT
  have hdep : d ∈ depsOf tm t.title := by
    unfold depsOf
    rw [hft]
    simp only [Option.map_some', Option.getD_some]
    rw [hrel.2.2.1]
    exact hd
  have hdR : d ∈ runSequencer tm := runSequencer_tdeps tm hctx t.title htR d hdep
  have hdK : d ∈ stf.finishedAt.map Prod.fst := by
    rw [hainv.fkeys]
    exact hdR
  obtain ⟨fd2, hfd2⟩ := Option.isSome_iff_exists.mp ((alGet_isSome_iff _ _).mpr hdK)
  obtain ⟨hlast2, -⟩ := hainv.fval d fd2 hfd2
  rw [hsch] at hfd hr
  have hfdeq : fd2 = fd := Option.some.inj (hlast2.symm.trans hfd)
  subst hfdeq
  exact hainv.dgate t.title htR d hdep fd2 hfd2 r hr a ha hat

/-- C7 witness: the two-task example run instantiates the theorem. -/
theorem C7_witness :
    scheduleTasks W2inp 0 = Outcome.ok W2out ∧
    ∀ t ∈ W2inp.tasks, ∀ d ∈ t.deps, ∀ fd, lastAllocDay W2out.schedule d = some fd →
      ∀ r ∈ W2out.schedule, ∀ a ∈ r.allocations, a.title = t.title → fd ≤ r.date :=
  ⟨W2_ok, C7_dependency_finish_gating W2inp 0 W2out W2_ok⟩

/-- C8: for every input on which `scheduleTasks` succeeds, every date in
the schedule falls on a weekday whose name is in the configured `workDays`
set. -/
theorem C8_allocations_on_workdays (inp : SchedInput) (today : ℕ)
    (out : ScheduleOutput) (h : scheduleTasks inp today = .ok out) :
    ∀ r ∈ out.schedule, weekdayName r.date ∈ inp.workDays := by
  obtain ⟨tm, stf, hbuild, hcheck, hctx, hestpos, hfa2, hlen, hord, hsch, hainv⟩ :=
    scheduleTasks_ok_big inp today out h
  intro r hr
  rw [hsch] at hr
  exact hainv.wd r hr

/-- C8 witness: the two-task example run instantiates the theorem. -/
theorem C8_witness :
    scheduleTasks W2inp 0 = Outcome.ok W2out ∧
    ∀ r ∈ W2out.schedule, weekdayName r.date ∈ W2inp.workDays :=
  ⟨W2_ok, C8_allocations_on_workdays W2inp 0 W2out W2_ok⟩

/-- C9 (amended): `scheduleTasks` terminates — returns or throws, never
looping — provided `workHoursPerDay` is positive, a start date (when given)
parses, and `workDays` names at least one weekday in the source's
three-letter table.  (The entry contract's plain "set of weekday names"
does not guarantee the last condition; see the counterexample.) -/
theorem C9_terminates (inp : SchedInput) (today : ℕ)
    (hhpd : 0 < inp.workHoursPerDay)
    (hwd : hasRealWorkday inp.workDays)
    (hsd : ∀ s, inp.startDate = some s → (parseDate s).isSome) :
    scheduleTasks inp today ≠ Outcome.diverge := by
  apply scheduleTasks_no_diverge inp today hhpd hwd
  unfold startSerial
  cases hs : inp.startDate with
  | none => simp
  | some s =>
    dsimp only
    by_cases hse : s = ""
    · simp [hse]
    · rw [if_neg hse]
      obtain ⟨n, hn⟩ := Option.isSome_iff_exists.mp (hsd s hs)
      rw [parseDateLenient_of_parseDate s n hn]
      simp

/-- C9 witness: the two-task example input satisfies the amended
conditions, and the call indeed does not loop. -/
theorem C9_witness :
    0 < W2inp.workHoursPerDay ∧ hasRealWorkday W2inp.workDays ∧
    scheduleTasks W2inp 0 ≠ Outcome.diverge :=
  ⟨by norm_num [W2inp], by unfold hasRealWorkday; decide,
    C9_terminates W2inp 0 (by norm_num [W2inp]) (by unfold hasRealWorkday; decide)
      (fun s hs => by rw [← Option.some.inj hs]; decide)⟩

/-- C9 counterexample to the original claim: full weekday names satisfy the
entry contract (positive hours, valid dates, positive day length, a set of
weekday names), yet the source's `nextWorkday` never recognizes them and
the call loops forever. -/
theorem C9_counterexample :
    (∀ t ∈ C9inp.tasks, 0 < t.estimatedHours ∧ parseDate t.dueDate = some 739260) ∧
    C9inp.startDate = some "2024-01-08" ∧
    parseDate "2024-01-08" = some 739258 ∧
    0 < C9inp.workHoursPerDay ∧
    scheduleTasks C9inp 0 = Outcome.diverge := by
  refine ⟨?_, rfl, by decide, by norm_num [C9inp], C9_diverges⟩
  intro t ht
  simp only [C9inp] at ht
  rcases List.mem_cons.mp ht with rfl | ht
  · exact ⟨by norm_num, by decide⟩
  · cases ht

/-- C10: for every input on which `scheduleTasks` succeeds, the day records
are in strictly increasing date order (so first-encounter order is
chronological and no date repeats), every allocation has positive hours,
and every task appears in at least one allocation. -/
theorem C10_schedule_wellformed (inp : SchedInput) (today : ℕ)
    (out : ScheduleOutput) (h : scheduleTasks inp today = .ok out) :
    (out.schedule.map DayRec.date).Pairwise (· < ·) ∧
    (∀ r ∈ out.schedule, ∀ a ∈ r.allocations, 0 < a.hours) ∧
    ∀ t ∈ inp.tasks, ∃ r ∈ out.schedule, ∃ a ∈ r.allocations, a.title = t.title := by
  obtain ⟨tm, stf, hbuild, hcheck, hctx, hestpos, hfa2, hlen, hord, hsch, hainv⟩ :=
    scheduleTasks_ok_big inp today out h
  have htitles : titles tm = inp.tasks.map RawTask.title := forall2_titles _ _ hfa2
  refine ⟨?_, ?_, ?_⟩
  · rw [hsch]
    exact hainv.dsort
  · intro r hr a ha
    rw [hsch] at hr
    exact hainv.apos r hr a ha
  · intro t ht
    obtain ⟨tt, hft, hrel⟩ := raw_findTask inp.tasks tm hfa2 hctx.nodup t ht
    have htT : t.title ∈ titles tm := by
      rw [htitles]
      exact List.mem_map_of_mem _ ht
    have htR : t.title ∈ runSequencer tm :=
      (runSequencer_perm tm hctx hlen).mem_iff.mpr htT
    have hsum := hainv.tsum t.title htR
    have hest : estOf tm t.title = t.estimatedHours := by
      unfold estOf
      rw [hft]
      simp only [Option.map_some', Option.getD_some]
      exact hrel.2.1
    have hpos : taskHours stf.schedule t.title ≠ 0 := by
      rw [hsum, hest]
      obtain ⟨u, hu, hrel2⟩ := forall2_mem_left hfa2 t ht
      exact ne_of_gt hrel2.2.2.2.2.2
    rw [hsch]
    exact taskHours_pos_mem stf.schedule t.title hpos

/-- C10 witness: the two-task example run instantiates the theorem. -/
theorem C10_witness :
    scheduleTasks W2inp 0 = Outcome.ok W2out ∧
    ((W2out.schedule.map DayRec.date).Pairwise (· < ·) ∧
    (∀ r ∈ W2out.schedule, ∀ a ∈ r.allocations, 0 < a.hours) ∧
    ∀ t ∈ W2inp.tasks, ∃ r ∈ W2out.schedule, ∃ a ∈ r.allocations, a.title = t.title) :=
  ⟨W2_ok, C10_schedule_wellformed W2inp 0 W2out W2_ok⟩

end SmartScheduler
